import Mathlib

/-!
Verification development for the supriya non-realtime scheduler
(`supriya/tools/nonrealtimetools/Session.py`) and the multi-out ugen
expansion (`supriya/tools/ugentools/MultiOutUGen.py`,
`supriya/library/audiolib/UGenArray.py`).

The Python source is shallowly embedded: each private method of
`Session` becomes a Lean function of the same name; Python dicts become
association lists with Python's insertion-order/update-in-place
semantics; offsets are rationals; an unbounded stop offset is `none`.
Collaborator code that lives outside the excerpted sources
(`timetools.TimespanCollection`, `nonrealtimetools.Synth`,
`servertools.NodeIdAllocator`, `servertools.BlockAllocator`, the OSC
wire encoding) is modelled from the specification; every such
definition carries a doc comment saying so.
-/

/-- Calculation rate of a bus (`synthdeftools.CalculationRate`, restricted
to the two rates the scheduler distinguishes). -/
inductive Rate where
  | audio
  | control
deriving DecidableEq, Repr

/-- A non-realtime bus as the scheduler sees it: its calculation rate, the
bus group it belongs to (if any, by group id), and for control buses the
recorded `(offset, value)` set-events (`bus._events`). -/
structure Bus where
  rate : Rate
  group : Option ℕ
  events : List (ℚ × ℚ)
deriving DecidableEq, Repr

/-- Modelled from the spec: a `nonrealtimetools.Synth` timed entity — a
half-open interval `[startOffset, stopOffset)` (stop `none` = unbounded),
the identity of its compiled SynthDef (`anonymous_name`, as a natural
number), and its recorded time-varying parameter-set events. -/
structure Synth where
  startOffset : ℚ
  stopOffset : Option ℚ
  synthdef : ℕ
  paramEvents : List (ℚ × String × ℚ)
deriving DecidableEq, Repr

/-- A render-range timespan (`abjad.timespantools.Timespan` at the
interface: a start offset and an optional finite stop offset). -/
structure Timespan where
  startOffset : ℚ
  stopOffset : Option ℚ
deriving DecidableEq, Repr

/-- A non-realtime session: channel counts, the ordered dictionary of user
buses (insertion order), and the synths in declaration order. -/
structure Session where
  inputCount : ℕ
  outputCount : ℕ
  buses : List Bus
  synths : List Synth
deriving DecidableEq, Repr

/-- The request classes that `Session._prioritized_request_types` and
`Session._process_requests` distinguish. -/
inductive ReqKind where
  | defReceive
  | busSet
  | groupNew
  | synthNew
  | busMapAudio
  | busMapControl
  | paramSet
  | nodeFree
deriving DecidableEq, Repr

/-- A scheduler request (`requesttools.*Request`), carrying the payload
the claims are about. -/
inductive Request where
  | synthDefReceive (synthdefs : List ℕ)
  | controlBusSet (pairs : List (ℕ × ℚ))
  | groupNew
  | synthNew (synthdef : ℕ) (nodeId : ℕ)
  | nodeMapToAudioBus (nodeId : ℕ) (busId : ℕ)
  | nodeMapToControlBus (nodeId : ℕ) (busId : ℕ)
  | nodeSet (nodeId : ℕ) (name : String) (value : ℚ)
  | nodeFree (nodeIds : List ℕ)
deriving DecidableEq, Repr

/-- The request class (`type(request)`) of a request. -/
def Request.kind : Request → ReqKind
  | .synthDefReceive _ => .defReceive
  | .controlBusSet _ => .busSet
  | .groupNew => .groupNew
  | .synthNew _ _ => .synthNew
  | .nodeMapToAudioBus _ _ => .busMapAudio
  | .nodeMapToControlBus _ _ => .busMapControl
  | .nodeSet _ _ _ => .paramSet
  | .nodeFree _ => .nodeFree

/-- The node ids carried by a node-free request (empty for others). -/
def Request.freeIds : Request → List ℕ
  | .nodeFree ids => ids
  | _ => []

/-- An OSC message: either the message rendered from a request
(`request.to_osc_message`) or a raw message such as the terminal
`OscMessage(0)`. -/
inductive OscMessage where
  | cmd (r : Request)
  | raw (n : ℕ)
deriving DecidableEq, Repr

/-- An OSC bundle: a timestamp and its ordered messages. -/
structure OscBundle where
  timestamp : ℚ
  contents : List OscMessage
deriving DecidableEq, Repr

/-- Python dict assignment `d[k] = v` on an association list: update in
place if the key is present, else append at the end. -/
def dictInsert {κ ν : Type _} [DecidableEq κ] (m : List (κ × ν)) (k : κ) (v : ν) :
    List (κ × ν) :=
  if m.any (fun p => p.1 = k) then
    m.map (fun p => if p.1 = k then (k, v) else p)
  else
    m ++ [(k, v)]

/-- Python dict `setdefault`-style first-wins insertion: insert only if
the key is absent. -/
def insertIfAbsent {κ ν : Type _} [DecidableEq κ] (m : List (κ × ν)) (k : κ) (v : ν) :
    List (κ × ν) :=
  if m.any (fun p => p.1 = k) then m else m ++ [(k, v)]

/-- The per-offset request dictionary built by the collectors: offsets in
key insertion order, each with its accumulated request list. -/
abbrev RequestMap := List (ℚ × List Request)

/-- `request_mapping.setdefault(offset, []).extend(rs)`: append `rs` to the
offset's list, creating the key (at the end, Python insertion order) if
absent. -/
def RequestMap.add (m : RequestMap) (off : ℚ) (rs : List Request) : RequestMap :=
  match m with
  | [] => [(off, rs)]
  | (o, l) :: rest =>
      if o = off then (o, l ++ rs) :: rest
      else (o, l) :: RequestMap.add rest off rs

/-- Total lookup in a request map (missing key reads as the empty list). -/
def RequestMap.find (m : RequestMap) (off : ℚ) : List Request :=
  match m with
  | [] => []
  | (o, l) :: rest => if o = off then l else RequestMap.find rest off

/-- Modelled from the spec: `servertools.NodeIdAllocator` — an integer
counter starting above the reserved/user range (the rendered examples
start at 1000); `allocate_node_id` returns the counter and increments
it. -/
def nodeIdAllocatorStart : ℕ := 1000

/-- Comparison key used when sorting synths for node-id assignment.
Modelled from the spec: `sorted(self._synths)` iterates entities ordered
by `(start_offset, declaration order)`; the declaration index is the
second component, making the order total. -/
def idOrderR (a b : ℕ × Synth) : Prop :=
  a.2.startOffset < b.2.startOffset ∨
    (a.2.startOffset = b.2.startOffset ∧ a.1 ≤ b.1)

instance : DecidableRel idOrderR := fun a b => by
  unfold idOrderR
  infer_instance

/-- The synths (paired with their declaration indices) in the order
`Session._build_synth_id_mapping` iterates them. -/
def sortedSynthsForIds (synths : List Synth) : List (ℕ × Synth) :=
  synths.enum.insertionSort idOrderR

/-- `Session._build_synth_id_mapping`: iterate the synths in sorted order
and allocate monotonically increasing node ids; the mapping is keyed by
declaration index. -/
def buildSynthIdMapping (synths : List Synth) : List (ℕ × ℕ) :=
  (sortedSynthsForIds synths).enum.map
    (fun p => (p.2.1, nodeIdAllocatorStart + p.1))

/-- The node id assigned to the synth with declaration index `i`. -/
def nodeIdOf (synths : List Synth) (i : ℕ) : ℕ :=
  ((buildSynthIdMapping synths).lookup i).getD 0

/-- Keys of the bus-id mapping: a session output bus, a session input bus,
a user bus (by position in the session's bus dictionary), or a bus group
(by group id). -/
inductive BusKey where
  | output (i : ℕ)
  | input (i : ℕ)
  | bus (i : ℕ)
  | group (g : ℕ)
deriving DecidableEq, Repr

/-- `len(bus.bus_group)`: the number of session buses belonging to group
`g`. -/
def groupSize (buses : List Bus) (g : ℕ) : ℕ :=
  (buses.filter (fun b => b.group = some g)).length

/-- One step of the user-bus loop of `Session._build_bus_id_mapping`.
State: next free audio-bus address, next free control-bus address, the
mapping so far.  Modelled from the spec for the allocator itself:
`servertools.BlockAllocator` is a first-fit free-list allocator; this
pass performs only allocations on fresh allocators, where first-fit
coincides with bumping from `heap_minimum`. -/
def busLoopStep (buses : List Bus) (st : ℕ × ℕ × List (BusKey × ℕ)) (p : ℕ × Bus) :
    ℕ × ℕ × List (BusKey × ℕ) :=
  if ((st.2.2).lookup (BusKey.bus p.1)).isSome then st
  else
    match p.2.group with
    | none =>
        if p.2.rate = Rate.audio then
          (st.1 + 1, st.2.1, dictInsert st.2.2 (BusKey.bus p.1) st.1)
        else
          (st.1, st.2.1 + 1, dictInsert st.2.2 (BusKey.bus p.1) st.2.1)
    | some g =>
        let size := groupSize buses g
        let block := if p.2.rate = Rate.audio then st.1 else st.2.1
        let audioNext' := if p.2.rate = Rate.audio then st.1 + size else st.1
        let ctrlNext' := if p.2.rate = Rate.audio then st.2.1 else st.2.1 + size
        let m := dictInsert st.2.2 (BusKey.group g) block
        let m := (List.range size).foldl
          (fun m a => dictInsert m (BusKey.bus p.1) (block + a)) m
        (audioNext', ctrlNext', m)

/-- `Session._build_bus_id_mapping`: output buses get the lowest ids, then
input buses, then the user buses via the two block allocators (audio
addresses starting at `input_count + output_count`, control addresses at
0). -/
def buildBusIdMapping (s : Session) : List (BusKey × ℕ) :=
  let firstPrivate := s.inputCount + s.outputCount
  let m := (List.range s.outputCount).foldl
    (fun m i => dictInsert m (BusKey.output i) i) []
  let m := (List.range s.inputCount).foldl
    (fun m i => dictInsert m (BusKey.input i) (s.outputCount + i)) m
  let st := s.buses.enum.foldl (busLoopStep s.buses) (firstPrivate, 0, m)
  st.2.2

/-- The bus address assigned to the user bus at position `i` of the
session's bus dictionary. -/
def busIdOf (s : Session) (i : ℕ) : ℕ :=
  ((buildBusIdMapping s).lookup (BusKey.bus i)).getD 0

/-- The inner loop of `Session._collect_bus_requests` for one control
bus: `events_by_offset.setdefault(offset, {})[bus_id] = value` for each
recorded event. -/
def busEvFold (busId : ℕ) (acc : List (ℚ × List (ℕ × ℚ))) (evs : List (ℚ × ℚ)) :
    List (ℚ × List (ℕ × ℚ)) :=
  evs.foldl
    (fun acc ev =>
      dictInsert acc ev.1 (dictInsert ((acc.lookup ev.1).getD []) busId ev.2))
    acc

/-- The `events_by_offset` dictionary of `Session._collect_bus_requests`:
outer keys are offsets in insertion order, inner dictionaries map bus id
to the (last-written) value. -/
def busEventsByOffset (s : Session) : List (ℚ × List (ℕ × ℚ)) :=
  s.buses.enum.foldl
    (fun acc p =>
      if p.2.rate = Rate.control then busEvFold (busIdOf s p.1) acc p.2.events
      else acc)
    []

/-- Order on bus-index pairs, comparing by index (inner dictionary keys
are distinct, so this matches Python's tuple comparison). -/
def pairIndexR (a b : ℕ × ℚ) : Prop := a.1 ≤ b.1

instance : DecidableRel pairIndexR := fun a b => by
  unfold pairIndexR
  infer_instance

/-- `Session._collect_bus_requests`: one coalesced control-bus-set request
per offset holding that offset's `(index, value)` pairs sorted by
index. -/
def collectBusRequests (s : Session) (m : RequestMap) : RequestMap :=
  (busEventsByOffset s).foldl
    (fun m p =>
      m.add p.1 [Request.controlBusSet (p.2.insertionSort pairIndexR)])
    m

/-- Every offset at which some synth starts or (finitely) stops. -/
def allOffsets (synths : List Synth) : List ℚ :=
  synths.flatMap (fun syn => syn.startOffset :: syn.stopOffset.toList)

/-- Modelled from the spec: `TimespanCollection.iterate_simultaneities` —
every distinct timeline point at which at least one entity starts or
stops, in ascending offset order.  Here only the offsets and each
offset's set of starting synths are consumed. -/
def simultaneityOffsets (synths : List Synth) : List ℚ :=
  (allOffsets synths).dedup.insertionSort (· ≤ ·)

/-- The `synthdefs_to_offsets` dictionary of
`Session._collect_synthdef_requests`: walking the simultaneities in
ascending order, each synthdef is recorded (first-wins) with the start
offset of the earliest synth referencing it. -/
def synthdefsToOffsets (synths : List Synth) : List (ℕ × ℚ) :=
  (simultaneityOffsets synths).foldl
    (fun m off =>
      (synths.filter (fun syn => syn.startOffset = off)).foldl
        (fun m syn => insertIfAbsent m syn.synthdef syn.startOffset) m)
    []

/-- The `offsets_to_synthdefs` grouping of
`Session._collect_synthdef_requests`. -/
def offsetsToSynthdefs (synths : List Synth) : List (ℚ × List ℕ) :=
  (synthdefsToOffsets synths).foldl
    (fun m p => dictInsert m p.2 (((m.lookup p.2).getD []) ++ [p.1]))
    []

/-- `Session._collect_synthdef_requests`: one synthdef-receive request per
offset, its synthdefs sorted by `anonymous_name` (here: by identity). -/
def collectSynthdefRequests (synths : List Synth) (m : RequestMap) : RequestMap :=
  (offsetsToSynthdefs synths).foldl
    (fun m p =>
      m.add p.1 [Request.synthDefReceive (p.2.insertionSort (· ≤ ·))])
    m

/-- Modelled from the spec: `Synth._collect_requests` — a synth-new
request at the start offset, a parameter-set request at each recorded
parameter event, and a node-free request at the (finite) stop offset. -/
def Synth.collectRequests (syn : Synth) (nodeId : ℕ) : List (ℚ × List Request) :=
  ((syn.startOffset, [Request.synthNew syn.synthdef nodeId]) ::
      syn.paramEvents.map (fun ev => (ev.1, [Request.nodeSet nodeId ev.2.1 ev.2.2])))
    ++ (match syn.stopOffset with
        | some stop => [(stop, [Request.nodeFree [nodeId]])]
        | none => [])

/-- Strict order on option-valued stop offsets, `none` (unbounded)
largest. -/
def stopLT (a b : Option ℚ) : Prop :=
  match a, b with
  | none, _ => False
  | some _, none => True
  | some x, some y => x < y

instance : DecidableRel stopLT := fun a b => by
  unfold stopLT
  cases a <;> cases b <;> infer_instance

/-- The comparator of `Session._collect_synth_requests`:
`(x._get_timespan(x), id_mapping[x])`, i.e. (start offset, stop offset,
node id), lexicographically. -/
def collectOrderR (synths : List Synth) (a b : ℕ × Synth) : Prop :=
  a.2.startOffset < b.2.startOffset ∨
    (a.2.startOffset = b.2.startOffset ∧
      (stopLT a.2.stopOffset b.2.stopOffset ∨
        (a.2.stopOffset = b.2.stopOffset ∧
          nodeIdOf synths a.1 ≤ nodeIdOf synths b.1)))

instance (synths : List Synth) : DecidableRel (collectOrderR synths) := fun a b => by
  unfold collectOrderR
  infer_instance

/-- The synths in the order `Session._collect_synth_requests` visits
them. -/
def sortedSynthsForCollect (synths : List Synth) : List (ℕ × Synth) :=
  synths.enum.insertionSort (collectOrderR synths)

/-- `Session._collect_synth_requests`: visit the synths in comparator
order and merge each synth's per-offset requests into the request map. -/
def collectSynthRequests (synths : List Synth) (m : RequestMap) : RequestMap :=
  (sortedSynthsForCollect synths).foldl
    (fun m p =>
      ((p.2.collectRequests (nodeIdOf synths p.1)).foldl
        (fun m q => m.add q.1 q.2) m))
    m

/-- The order `_prioritized_request_types` fixes for emission (node-free
requests are handled separately afterwards). -/
def prioritizedRequestTypes : List ReqKind :=
  [.defReceive, .busSet, .groupNew, .synthNew, .busMapAudio, .busMapControl, .paramSet]

/-- `Session._process_requests`: group the offset's requests by class,
emit them class by class in priority order, then append one node-free
message coalescing every node-free request's ids. -/
def processRequests (offset : ℚ) (requests : List Request) : OscBundle :=
  let msgs := prioritizedRequestTypes.flatMap
    (fun k => (requests.filter (fun r => r.kind = k)).map OscMessage.cmd)
  let frees := requests.filter (fun r => r.kind = ReqKind.nodeFree)
  let msgs :=
    if frees.isEmpty then msgs
    else msgs ++ [OscMessage.cmd (Request.nodeFree (frees.flatMap Request.freeIds))]
  ⟨offset, msgs⟩

/-- `Session._process_terminal_event`: when a render range with a finite
stop ends strictly after the final emitted offset, append a terminal
bundle holding the raw message `OscMessage(0)` at that stop. -/
def processTerminalEvent (finalOffset : ℚ) (ts : Option Timespan) : List OscBundle :=
  match ts with
  | none => []
  | some t =>
      match t.stopOffset with
      | none => []
      | some stop =>
          if finalOffset < stop then [⟨stop, [OscMessage.raw 0]⟩] else []

/-- Modelled from the spec: timespan intersection (`synths & timespan`) —
clip a synth to the render range, dropping it when the intersection is
empty. -/
def maskSynth (t : Timespan) (syn : Synth) : Option Synth :=
  let newStart := max syn.startOffset t.startOffset
  let newStop : Option ℚ :=
    match syn.stopOffset, t.stopOffset with
    | none, none => none
    | none, some b => some b
    | some a, none => some a
    | some a, some b => some (min a b)
  match newStop with
  | none => some { syn with startOffset := newStart, stopOffset := none }
  | some stop =>
      if newStart < stop then
        some { syn with startOffset := newStart, stopOffset := some stop }
      else none

/-- Modelled from the spec: `TimespanInventory.translate` — shift a
synth's interval (and its recorded events) by `delta`. -/
def translateSynth (delta : ℚ) (syn : Synth) : Synth :=
  { syn with
      startOffset := syn.startOffset + delta
      stopOffset := syn.stopOffset.map (· + delta)
      paramEvents := syn.paramEvents.map (fun ev => (ev.1 + delta, ev.2)) }

/-- The earliest start offset among the session's synths (the hull start
`original_timespan.start_offset`). -/
def minStartOffset (synths : List Synth) : ℚ :=
  match synths with
  | [] => 0
  | syn :: rest => rest.foldl (fun acc s => min acc s.startOffset) syn.startOffset

/-- `Session._process_timespan_mask`: with a render range, mask the synths
to the range, translate them by `range.start - hull.start`, and place
them in a fresh session (default channel counts, no buses); otherwise
return the session unchanged. -/
def processTimespanMask (s : Session) (ts : Option Timespan) : Session :=
  match ts with
  | none => s
  | some t =>
      if s.synths.isEmpty then s
      else
        let translation := t.startOffset - minStartOffset s.synths
        let masked := (s.synths.filterMap (maskSynth t)).map (translateSynth translation)
        { inputCount := 0, outputCount := 2, buses := [], synths := masked }

/-- Order on request-map items by offset (`sorted(request_mapping.items())`;
keys are distinct, so this matches Python's tuple comparison). -/
def itemOffsetR (a b : ℚ × List Request) : Prop := a.1 ≤ b.1

instance : DecidableRel itemOffsetR := fun a b => by
  unfold itemOffsetR
  infer_instance

/-- The error raised by the scheduler: `to_osc_bundles` raises a bare
`ValueError` when nothing was collected; `EmptySessionError` is the
error class the documentation names for this condition. -/
inductive SessionError where
  | valueError
  | emptySessionError
deriving DecidableEq, Repr

/-- The fully collected request map of a session (bus requests, then
synthdef requests, then synth requests). -/
def Session.requestMapping (s : Session) : RequestMap :=
  collectSynthRequests s.synths
    (collectSynthdefRequests s.synths
      (collectBusRequests s []))

/-- `Session.to_osc_bundles`: mask, collect, fail on an empty collection,
then emit one bundle per offset in ascending offset order, plus the
terminal bundle. -/
def Session.toOscBundles (s : Session) (ts : Option Timespan) :
    Except SessionError (List OscBundle) :=
  let session := processTimespanMask s ts
  let rm := session.requestMapping
  if rm.isEmpty then Except.error SessionError.valueError
  else
    let sortedItems := rm.insertionSort itemOffsetR
    let bundles := sortedItems.map (fun p => processRequests p.1 p.2)
    let finalOffset := ((sortedItems.map (fun p => p.1)).getLast?).getD 0
    Except.ok (bundles ++ processTerminalEvent finalOffset ts)

/-- Big-endian 4-byte encoding of a datagram length
(`struct.pack` with format string `>i`). -/
def be32 (n : ℕ) : List ℕ :=
  [n / 2 ^ 24 % 256, n / 2 ^ 16 % 256, n / 2 ^ 8 % 256, n % 256]

/-- Modelled from the spec: the external OSC wire encoding of one message
(a fixed, already-specified format consumed as given; any concrete
deterministic encoding serves the claims about the framing around it). -/
def OscMessage.encodeBytes : OscMessage → List ℕ
  | .raw n => [0, n % 256]
  | .cmd r =>
      match r with
      | .synthDefReceive ds => 1 :: ds.map (· % 256)
      | .controlBusSet ps => 2 :: ps.flatMap (fun p => [p.1 % 256, p.2.num.natAbs % 256])
      | .groupNew => [3]
      | .synthNew d n => [4, d % 256, n % 256]
      | .nodeMapToAudioBus n b => [5, n % 256, b % 256]
      | .nodeMapToControlBus n b => [6, n % 256, b % 256]
      | .nodeSet n _ v => [7, n % 256, v.num.natAbs % 256]
      | .nodeFree ids => 8 :: ids.map (· % 256)

/-- Modelled from the spec: the external OSC bundle wire encoding — an
8-byte timestamp followed by the encoded messages. -/
def OscBundle.toDatagramBytes (b : OscBundle) : List ℕ :=
  [b.timestamp.num.natAbs % 256, b.timestamp.den % 256, 0, 0, 0, 0, 0, 0]
    ++ b.contents.flatMap OscMessage.encodeBytes

/-- `Session.to_datagram`: serialize every bundle with a 4-byte big-endian
length prefix and concatenate. -/
def Session.toDatagram (s : Session) (ts : Option Timespan) :
    Except SessionError (List ℕ) :=
  (s.toOscBundles ts).map
    (fun bundles =>
      bundles.foldl
        (fun acc b =>
          let d := b.toDatagramBytes
          acc ++ be32 d.length ++ d)
        [])

/-- `UGenArray`: a sequence of ugens/output proxies whose constructor
asserts non-emptiness (`assert len(ugens)`). -/
structure UGenArray (α : Type _) where
  ugens : List α
  ne : ugens ≠ []

/-- `UGenArray(ugens)`: the failing assertion on an empty sequence is
modelled as `none`. -/
def mkUGenArray {α : Type _} (l : List α) : Option (UGenArray α) :=
  match l with
  | [] => none
  | x :: xs => some ⟨x :: xs, by simp⟩

/-- `UGenArray.__add__`: elementwise `x + expr`. -/
def UGenArray.addExpr {α : Type _} [Add α] (a : UGenArray α) (expr : α) : UGenArray α :=
  ⟨a.ugens.map (· + expr), fun h => a.ne (by simpa using h)⟩

/-- `UGenArray.__mul__`: elementwise `x * expr`. -/
def UGenArray.mulExpr {α : Type _} [Mul α] (a : UGenArray α) (expr : α) : UGenArray α :=
  ⟨a.ugens.map (· * expr), fun h => a.ne (by simpa using h)⟩

/-- `UGenArray.__sub__`: elementwise `x - expr`. -/
def UGenArray.subExpr {α : Type _} [Sub α] (a : UGenArray α) (expr : α) : UGenArray α :=
  ⟨a.ugens.map (· - expr), fun h => a.ne (by simpa using h)⟩

/-- `UGenArray.__neg__`: elementwise negation. -/
def UGenArray.negArr {α : Type _} [Neg α] (a : UGenArray α) : UGenArray α :=
  ⟨a.ugens.map (- ·), fun h => a.ne (by simpa using h)⟩

/-- `MultiOutUGen._new_expanded`: the superclass either returned a single
ugen (`.inl`, with its output proxies) or a sequence of expanded
instances (`.inr`); the per-instance output proxies (`x[:]`) are
flattened, a length-one flattening returns the bare proxy, and otherwise
a `UGenArray` is built. -/
def MultiOutUGen.newExpanded {α : Type _} (u : Sum (List α) (List (List α))) :
    Option (Sum α (UGenArray α)) :=
  let outputProxies :=
    match u with
    | .inl outs => outs
    | .inr insts => insts.flatMap id
  if outputProxies.length = 1 then outputProxies.head?.map Sum.inl
  else (mkUGenArray outputProxies).map Sum.inr

/-- The flattened output-proxy sequence of `MultiOutUGen._new_expanded`. -/
def MultiOutUGen.flattenedProxies {α : Type _} (u : Sum (List α) (List (List α))) :
    List α :=
  match u with
  | .inl outs => outs
  | .inr insts => insts.flatMap id

/-- The emission priority `_prioritized_request_types` fixes, with the
node-free class (handled afterwards by `_process_requests`) last. -/
def kindPriority : ReqKind → ℕ
  | .defReceive => 0
  | .busSet => 1
  | .groupNew => 2
  | .synthNew => 3
  | .busMapAudio => 4
  | .busMapControl => 5
  | .paramSet => 6
  | .nodeFree => 7

/-- Two messages respect the emission priority: whenever both render
requests, the earlier one's class priority is at most the later one's. -/
def msgPriorityLE (m₁ m₂ : OscMessage) : Prop :=
  ∀ r₁ r₂, m₁ = OscMessage.cmd r₁ → m₂ = OscMessage.cmd r₂ →
    kindPriority r₁.kind ≤ kindPriority r₂.kind

/-- Whether a message is a node-free command. -/
def isNodeFreeMsg : OscMessage → Bool
  | .cmd (.nodeFree _) => true
  | _ => false

/-- Whether a message is a coalesced control-bus-set command. -/
def isBusSetMsg : OscMessage → Bool
  | .cmd (.controlBusSet _) => true
  | _ => false

/-- Whether a message is a definition-receive command transmitting the
synthdef `d`. -/
def mentionsDef (d : ℕ) : OscMessage → Bool
  | .cmd (.synthDefReceive ds) => ds.contains d
  | _ => false

/-- A session holding one control-rate bus group with two member buses
and nothing else: the smallest input exhibiting the bus-group address
assignment of `_build_bus_id_mapping`. -/
def busGroupBugSession : Session :=
  ⟨0, 0, [⟨Rate.control, some 0, []⟩, ⟨Rate.control, some 0, []⟩], []⟩

/-- A session with a single synth on `[0, 10)`, used to exercise the
scheduler on a concrete input. -/
def oneSynthSession : Session :=
  ⟨0, 2, [], [⟨0, some 10, 0, []⟩]⟩

/-- The empty session: no buses, no synths. -/
def emptySession : Session :=
  ⟨0, 2, [], []⟩

instance : IsTotal (ℕ × Synth) idOrderR :=
  ⟨fun a b => by
    unfold idOrderR
    rcases lt_trichotomy a.2.startOffset b.2.startOffset with h | h | h
    · exact Or.inl (Or.inl h)
    · rcases Nat.le_total a.1 b.1 with h' | h'
      · exact Or.inl (Or.inr ⟨h, h'⟩)
      · exact Or.inr (Or.inr ⟨h.symm, h'⟩)
    · exact Or.inr (Or.inl h)⟩

instance : IsTrans (ℕ × Synth) idOrderR :=
  ⟨fun a b c hab hbc => by
    unfold idOrderR at *
    rcases hab with hab | ⟨hab, hab'⟩ <;> rcases hbc with hbc | ⟨hbc, hbc'⟩
    · exact Or.inl (hab.trans hbc)
    · exact Or.inl (hbc ▸ hab)
    · exact Or.inl (hab ▸ hbc)
    · exact Or.inr ⟨hab.trans hbc, hab'.trans hbc'⟩⟩

instance (synths : List Synth) : IsTotal (ℕ × Synth) (collectOrderR synths) :=
  ⟨fun a b => by
    unfold collectOrderR
    rcases lt_trichotomy a.2.startOffset b.2.startOffset with h | h | h
    · exact Or.inl (Or.inl h)
    · rcases ha : a.2.stopOffset with _ | x <;> rcases hb : b.2.stopOffset with _ | y
      · rcases Nat.le_total (nodeIdOf synths a.1) (nodeIdOf synths b.1) with h' | h'
        · exact Or.inl (Or.inr ⟨h, Or.inr ⟨rfl, h'⟩⟩)
        · exact Or.inr (Or.inr ⟨h.symm, Or.inr ⟨rfl, h'⟩⟩)
      · exact Or.inr (Or.inr ⟨h.symm, Or.inl trivial⟩)
      · exact Or.inl (Or.inr ⟨h, Or.inl trivial⟩)
      · rcases lt_trichotomy x y with h' | h' | h'
        · exact Or.inl (Or.inr ⟨h, Or.inl h'⟩)
        · rcases Nat.le_total (nodeIdOf synths a.1) (nodeIdOf synths b.1) with h'' | h''
          · exact Or.inl (Or.inr ⟨h, Or.inr ⟨by rw [h'], h''⟩⟩)
          · exact Or.inr (Or.inr ⟨h.symm, Or.inr ⟨by rw [h'], h''⟩⟩)
        · exact Or.inr (Or.inr ⟨h.symm, Or.inl h'⟩)
    · exact Or.inr (Or.inl h)⟩

instance (synths : List Synth) : IsTrans (ℕ × Synth) (collectOrderR synths) :=
  ⟨fun a b c hab hbc => by
    unfold collectOrderR at *
    rcases hab with hab | ⟨hab, hab'⟩ <;> rcases hbc with hbc | ⟨hbc, hbc'⟩
    · exact Or.inl (hab.trans hbc)
    · exact Or.inl (hbc ▸ hab)
    · exact Or.inl (hab ▸ hbc)
    · refine Or.inr ⟨hab.trans hbc, ?_⟩
      rcases hab' with hab' | ⟨hab', hab''⟩ <;> rcases hbc' with hbc' | ⟨hbc', hbc''⟩
      · refine Or.inl ?_
        unfold stopLT at *
        rcases ha : a.2.stopOffset with _ | x <;>
          rcases hb : b.2.stopOffset with _ | y <;>
          rcases hc : c.2.stopOffset with _ | z <;>
          simp_all
        exact hab'.trans hbc'
      · exact Or.inl (hbc' ▸ hab')
      · exact Or.inl (hab' ▸ hbc')
      · exact Or.inr ⟨hab'.trans hbc', hab''.trans hbc''⟩⟩

instance : IsTotal (ℕ × ℚ) pairIndexR :=
  ⟨fun a b => Nat.le_total a.1 b.1⟩

instance : IsTrans (ℕ × ℚ) pairIndexR :=
  ⟨fun _ _ _ hab hbc => Nat.le_trans hab hbc⟩

instance : IsTotal (ℚ × List Request) itemOffsetR :=
  ⟨fun a b => le_total a.1 b.1⟩

instance : IsTrans (ℚ × List Request) itemOffsetR :=
  ⟨fun _ _ _ hab hbc => le_trans hab hbc⟩

/-- The flattened per-offset contributions of `_collect_synth_requests`:
each synth's requests, in visiting order. -/
def synthContribs (synths : List Synth) : List (ℚ × List Request) :=
  (sortedSynthsForCollect synths).flatMap
    (fun p => p.2.collectRequests (nodeIdOf synths p.1))

/-- The requests `_collect_bus_requests` contributes at offset `o`. -/
def busRequestsAt (s : Session) (o : ℚ) : List Request :=
  ((busEventsByOffset s).filter (fun p => p.1 = o)).flatMap
    (fun p => [Request.controlBusSet (p.2.insertionSort pairIndexR)])

/-- The requests `_collect_synthdef_requests` contributes at offset `o`. -/
def synthdefRequestsAt (synths : List Synth) (o : ℚ) : List Request :=
  ((offsetsToSynthdefs synths).filter (fun p => p.1 = o)).flatMap
    (fun p => [Request.synthDefReceive (p.2.insertionSort (· ≤ ·))])

/-- The requests `_collect_synth_requests` contributes at offset `o`. -/
def synthRequestsAt (synths : List Synth) (o : ℚ) : List Request :=
  ((synthContribs synths).filter (fun q => q.1 = o)).flatMap (fun q => q.2)

/-- The bus addresses the user-bus loop assigns when every bus is
ungrouped: audio buses count up from `a`, control buses from `c`. -/
def busAddrList : List (ℕ × Bus) → ℕ → ℕ → List (BusKey × ℕ)
  | [], _, _ => []
  | (i, bus) :: rest, a, c =>
      if bus.rate = Rate.audio then (BusKey.bus i, a) :: busAddrList rest (a + 1) c
      else (BusKey.bus i, c) :: busAddrList rest a (c + 1)

/-- The control-bus value changes recorded at offset `t`, as
`(assigned bus id, value)` pairs in bus-declaration order. -/
def ctrlEventPairs (s : Session) (t : ℚ) : List (ℕ × ℚ) :=
  s.buses.enum.flatMap
    (fun p =>
      if p.2.rate = Rate.control then
        (p.2.events.filter (fun e => e.1 = t)).map (fun e => (busIdOf s p.1, e.2))
      else [])

/-- The session used to witness node-free coalescing: two synths on
`[0, 10)`. -/
def twoSynthSession : Session :=
  ⟨0, 2, [], [⟨0, some 10, 0, []⟩, ⟨0, some 10, 1, []⟩]⟩

/-- The session used to witness control-bus coalescing: a two-member
control-rate bus group with value changes at offsets 0 and 3, and one
synth on `[0, 4)`.  The buggy block allocation lands the members on
addresses 1 and 3 — distinct, so coalescing and sorting still hold. -/
def twoBusSession : Session :=
  ⟨0, 2,
   [⟨Rate.control, some 0, [(0, 17), (3, 21)]⟩,
    ⟨Rate.control, some 0, [(3, 5)]⟩],
   [⟨0, some 4, 2, []⟩]⟩

/-- The session of the spec's end-to-end scenario C: two overlapping
synths on `[0, 10)` and `[5, 15)` sharing one synthdef. -/
def sharedDefSession : Session :=
  ⟨0, 2, [], [⟨0, some 10, 7, []⟩, ⟨5, some 15, 7, []⟩]⟩

/-- The bundle list `sharedDefSession.toOscBundles none` evaluates to. -/
def sharedDefBundles : List OscBundle :=
  [⟨0, [OscMessage.cmd (Request.synthDefReceive [7]),
        OscMessage.cmd (Request.synthNew 7 1000)]⟩,
   ⟨5, [OscMessage.cmd (Request.synthNew 7 1001)]⟩,
   ⟨10, [OscMessage.cmd (Request.nodeFree [1000])]⟩,
   ⟨15, [OscMessage.cmd (Request.nodeFree [1001])]⟩]

/-- The bundle list `twoBusSession.toOscBundles none` evaluates to. -/
def twoBusBundles : List OscBundle :=
  [⟨0, [OscMessage.cmd (Request.synthDefReceive [2]),
        OscMessage.cmd (Request.controlBusSet [(1, 17)]),
        OscMessage.cmd (Request.synthNew 2 1000)]⟩,
   ⟨3, [OscMessage.cmd (Request.controlBusSet [(1, 21), (3, 5)])]⟩,
   ⟨4, [OscMessage.cmd (Request.nodeFree [1000])]⟩]

/-- C4: in `_build_bus_id_mapping`, a two-member control-rate bus group
does not receive one contiguous block with its members at consecutive
addresses: each member iteration allocates a fresh block of the group's
size and repeatedly overwrites the member's own entry, so the members
land on addresses 1 and 3 while the group records block 2. -/
theorem C4_bus_group_block_bug :
    buildBusIdMapping busGroupBugSession =
      [(BusKey.group 0, 2), (BusKey.bus 0, 1), (BusKey.bus 1, 3)] ∧
    (buildBusIdMapping busGroupBugSession).lookup (BusKey.group 0) = some 2 ∧
    (buildBusIdMapping busGroupBugSession).lookup (BusKey.bus 0) = some 1 ∧
    (buildBusIdMapping busGroupBugSession).lookup (BusKey.bus 1) = some 3 := by
  decide

/-- C9 (counterexample): rendering the empty session fails, but with the
bare `ValueError` that `to_osc_bundles` raises, not with
`EmptySessionError`. -/
theorem C9_counterexample :
    emptySession.toOscBundles none = Except.error SessionError.valueError ∧
    SessionError.valueError ≠ SessionError.emptySessionError := by
  constructor
  · rfl
  · decide

/-- C9 (amended): `to_osc_bundles` fails with `ValueError` exactly when
the collected request mapping is empty, the failure is the synchronous
result of the bundle-producing operation itself (no bundles are
produced), and any error it returns is that `ValueError`. -/
theorem C9_empty_collection_value_error (s : Session) (ts : Option Timespan) :
    (s.toOscBundles ts = Except.error SessionError.valueError ↔
      (processTimespanMask s ts).requestMapping = []) ∧
    (∀ e, s.toOscBundles ts = Except.error e → e = SessionError.valueError) ∧
    (∀ bs, s.toOscBundles ts = Except.ok bs →
      (processTimespanMask s ts).requestMapping ≠ []) := by
  unfold Session.toOscBundles
  by_cases h : (processTimespanMask s ts).requestMapping.isEmpty
  · rw [if_pos h]
    refine ⟨⟨fun _ => List.isEmpty_iff.mp h, fun _ => rfl⟩, ?_, ?_⟩
    · intro e he
      exact (Except.error.inj he).symm
    · intro bs hbs
      exact absurd hbs (by simp)
  · rw [if_neg h]
    refine ⟨⟨fun he => absurd he (by simp), ?_⟩, ?_, ?_⟩
    · intro hempty
      exact absurd (List.isEmpty_iff.mpr hempty) h
    · intro e he
      exact absurd he (by simp)
    · intro bs _ hempty
      exact absurd (List.isEmpty_iff.mpr hempty) h

/-- C9 (witness for the amended theorem): instantiated at the empty
session, whose request mapping is empty and whose render therefore
fails with `ValueError`. -/
theorem C9_empty_collection_value_error_witness :
    SessionError.valueError = SessionError.valueError ∧
    emptySession.toOscBundles none = Except.error SessionError.valueError :=
  ⟨(C9_empty_collection_value_error emptySession none).2.1
      SessionError.valueError (by rfl),
    (C9_empty_collection_value_error emptySession none).1.mpr (by rfl)⟩

/-- C5: scheduling is deterministic — the bundle-producing operation is a
pure function of the session and range (equal inputs give the identical
ordered bundle list), and the serialized datagram is a function of that
bundle list alone, so equal bundle lists give byte-identical datagrams. -/
theorem C5_scheduling_determinism (s₁ s₂ : Session) (ts₁ ts₂ : Option Timespan)
    (h : s₁.toOscBundles ts₁ = s₂.toOscBundles ts₂) :
    s₁.toOscBundles ts₁ = s₂.toOscBundles ts₂ ∧
    s₁.toDatagram ts₁ = s₂.toDatagram ts₂ := by
  refine ⟨h, ?_⟩
  unfold Session.toDatagram
  rw [h]

/-- C5 (witness): two runs on the same one-synth session and range give
the same bundles and the same datagram bytes. -/
theorem C5_scheduling_determinism_witness :
    oneSynthSession.toOscBundles none = oneSynthSession.toOscBundles none ∧
    oneSynthSession.toDatagram none = oneSynthSession.toDatagram none :=
  C5_scheduling_determinism oneSynthSession oneSynthSession none none rfl

/-- C10: multichannel expansion of a multi-out ugen flattens the
per-instance output proxies; a length-one flattening returns the bare
proxy, any other non-empty flattening returns a `UGenArray` holding
exactly the flattened proxies (hence non-empty), and the elementwise
arithmetic operations of `UGenArray` preserve its length. -/
theorem C10_multi_out_expansion {α : Type} [Add α] [Mul α] [Sub α] [Neg α]
    (u : Sum (List α) (List (List α))) :
    (∀ x, MultiOutUGen.flattenedProxies u = [x] →
      MultiOutUGen.newExpanded u = some (Sum.inl x)) ∧
    ((MultiOutUGen.flattenedProxies u).length ≠ 1 →
      MultiOutUGen.flattenedProxies u ≠ [] →
      ∃ arr : UGenArray α, MultiOutUGen.newExpanded u = some (Sum.inr arr) ∧
        arr.ugens = MultiOutUGen.flattenedProxies u ∧ arr.ugens ≠ []) ∧
    (∀ (arr : UGenArray α) (e : α),
      (arr.addExpr e).ugens.length = arr.ugens.length ∧
      (arr.mulExpr e).ugens.length = arr.ugens.length ∧
      (arr.subExpr e).ugens.length = arr.ugens.length ∧
      arr.negArr.ugens.length = arr.ugens.length) := by
  have hun : MultiOutUGen.newExpanded u =
      (if (MultiOutUGen.flattenedProxies u).length = 1 then
        (MultiOutUGen.flattenedProxies u).head?.map Sum.inl
      else (mkUGenArray (MultiOutUGen.flattenedProxies u)).map Sum.inr) := by
    cases u <;> rfl
  refine ⟨?_, ?_, ?_⟩
  · intro x hx
    rw [hun, hx]
    rfl
  · intro hlen hne
    rw [hun, if_neg hlen]
    cases hflat : MultiOutUGen.flattenedProxies u with
    | nil => exact absurd hflat hne
    | cons y ys =>
        refine ⟨⟨y :: ys, by simp⟩, ?_, by simp, by simp⟩
        simp [mkUGenArray]
  · intro arr e
    refine ⟨?_, ?_, ?_, ?_⟩ <;>
      simp [UGenArray.addExpr, UGenArray.mulExpr, UGenArray.subExpr, UGenArray.negArr]

/-- C10 (witness): expanding two one-output instances yields the
two-element array `[1, 2]`; a single flattened proxy is returned bare. -/
theorem C10_multi_out_expansion_witness :
    MultiOutUGen.newExpanded (Sum.inr [[(5 : ℤ)]]) = some (Sum.inl 5) ∧
    ∃ arr : UGenArray ℤ,
      MultiOutUGen.newExpanded (Sum.inr [[(1 : ℤ)], [2]]) = some (Sum.inr arr) ∧
      arr.ugens = [1, 2] ∧ arr.ugens ≠ [] := by
  constructor
  · exact (C10_multi_out_expansion (Sum.inr [[(5 : ℤ)]])).1 5 rfl
  · have h := (C10_multi_out_expansion (Sum.inr [[(1 : ℤ)], [2]])).2.1
      (by decide) (by decide)
    simpa [MultiOutUGen.flattenedProxies] using h

/-- In an association list with distinct keys, a key determines its
value. -/
theorem keysNodup_functional {κ ν : Type _} {l : List (κ × ν)}
    (h : (l.map Prod.fst).Nodup) {k : κ} {v₁ v₂ : ν}
    (h₁ : (k, v₁) ∈ l) (h₂ : (k, v₂) ∈ l) : v₁ = v₂ := by
  induction l with
  | nil => cases h₁
  | cons p rest ih =>
      obtain ⟨pk, pv⟩ := p
      simp only [List.map_cons, List.nodup_cons] at h
      rcases List.mem_cons.mp h₁ with e₁ | m₁ <;> rcases List.mem_cons.mp h₂ with e₂ | m₂
      · injection e₁ with ek ev
        injection e₂ with ek' ev'
        exact ev.trans ev'.symm
      · injection e₁ with ek ev
        subst ek
        exact absurd (List.mem_map_of_mem Prod.fst m₂) h.1
      · injection e₂ with ek ev
        subst ek
        exact absurd (List.mem_map_of_mem Prod.fst m₁) h.1
      · exact ih h.2 m₁ m₂

/-- The keys of the node-id mapping are the declaration indices in
iteration order. -/
theorem buildSynthIdMapping_keys (synths : List Synth) :
    (buildSynthIdMapping synths).map Prod.fst =
      (sortedSynthsForIds synths).map Prod.fst := by
  unfold buildSynthIdMapping
  rw [List.map_map,
    show (Prod.fst ∘ fun p : ℕ × (ℕ × Synth) => (p.2.1, nodeIdAllocatorStart + p.1)) =
      Prod.fst ∘ Prod.snd from rfl,
    ← List.map_map, List.enum_map_snd]

/-- The keys of the node-id mapping are distinct: every synth is mapped
once. -/
theorem buildSynthIdMapping_keys_nodup (synths : List Synth) :
    ((buildSynthIdMapping synths).map Prod.fst).Nodup := by
  rw [buildSynthIdMapping_keys]
  have hperm : List.Perm (sortedSynthsForIds synths) synths.enum :=
    List.perm_insertionSort _ _
  exact ((hperm.map Prod.fst).nodup_iff).mpr (List.nodup_enum_map_fst _)

/-- C3: node ids are allocated from a monotonic counter along the
iteration order `(start_offset, declaration order)`: the assigned ids
are strictly increasing along that order, no id is reused within one
render, and of two synths with equal start offsets the one declared
earlier receives the smaller node id, regardless of their stop
offsets. -/
theorem C3_node_id_assignment (synths : List Synth) :
    ((buildSynthIdMapping synths).map Prod.snd).Pairwise (· < ·) ∧
    ((buildSynthIdMapping synths).map Prod.snd).Nodup ∧
    (∀ i j a b ni nj, i < j →
      synths[i]? = some a → synths[j]? = some b →
      a.startOffset = b.startOffset →
      (i, ni) ∈ buildSynthIdMapping synths →
      (j, nj) ∈ buildSynthIdMapping synths →
      ni < nj) := by
  have hmap : (buildSynthIdMapping synths).map Prod.snd =
      (List.range (sortedSynthsForIds synths).length).map
        (fun k => nodeIdAllocatorStart + k) := by
    unfold buildSynthIdMapping
    rw [List.map_map,
      show (Prod.snd ∘ fun p : ℕ × (ℕ × Synth) => (p.2.1, nodeIdAllocatorStart + p.1)) =
        (fun k => nodeIdAllocatorStart + k) ∘ Prod.fst from rfl,
      ← List.map_map, List.enum_map_fst]
  have hpair : ((buildSynthIdMapping synths).map Prod.snd).Pairwise (· < ·) := by
    rw [hmap]
    exact List.pairwise_map.mpr
      ((List.pairwise_lt_range _).imp fun h => Nat.add_lt_add_left h _)
  refine ⟨hpair, hpair.imp (fun h => Nat.ne_of_lt h), ?_⟩
  intro i j a b ni nj hij hgi hgj hstart hmi hmj
  have hperm : List.Perm (sortedSynthsForIds synths) synths.enum :=
    List.perm_insertionSort _ _
  have hia : (i, a) ∈ sortedSynthsForIds synths :=
    hperm.mem_iff.mpr (List.mem_enum_iff_getElem?.mpr hgi)
  have hjb : (j, b) ∈ sortedSynthsForIds synths :=
    hperm.mem_iff.mpr (List.mem_enum_iff_getElem?.mpr hgj)
  obtain ⟨k₁, hk₁⟩ := List.mem_iff_get.mp hia
  obtain ⟨k₂, hk₂⟩ := List.mem_iff_get.mp hjb
  have hsorted : (sortedSynthsForIds synths).Pairwise idOrderR :=
    List.sorted_insertionSort idOrderR _
  have hk12 : k₁.val < k₂.val := by
    rcases Nat.lt_trichotomy k₁.val k₂.val with h | h | h
    · exact h
    · exfalso
      have : (i, a) = (j, b) := by
        rw [← hk₁, ← hk₂]
        congr 1
        exact Fin.ext h
      exact absurd (congrArg Prod.fst this) (Nat.ne_of_lt hij)
    · exfalso
      have hrel : idOrderR (j, b) (i, a) := by
        have := List.pairwise_iff_get.mp hsorted k₂ k₁ h
        rw [hk₁, hk₂] at this
        exact this
      unfold idOrderR at hrel
      rcases hrel with hrel | ⟨_, hrel⟩
      · simp only [hstart] at hrel
        exact absurd hrel (lt_irrefl _)
      · exact absurd hrel (Nat.not_le_of_lt hij)
  have hmem₁ : (i, nodeIdAllocatorStart + k₁.val) ∈ buildSynthIdMapping synths := by
    unfold buildSynthIdMapping
    refine List.mem_map.mpr ⟨(k₁.val, (i, a)), ?_, rfl⟩
    refine List.mem_enum_iff_getElem?.mpr ?_
    rw [List.getElem?_eq_getElem k₁.isLt, ← List.get_eq_getElem, hk₁]
  have hmem₂ : (j, nodeIdAllocatorStart + k₂.val) ∈ buildSynthIdMapping synths := by
    unfold buildSynthIdMapping
    refine List.mem_map.mpr ⟨(k₂.val, (j, b)), ?_, rfl⟩
    refine List.mem_enum_iff_getElem?.mpr ?_
    rw [List.getElem?_eq_getElem k₂.isLt, ← List.get_eq_getElem, hk₂]
  have hni : ni = nodeIdAllocatorStart + k₁.val :=
    keysNodup_functional (buildSynthIdMapping_keys_nodup synths) hmi hmem₁
  have hnj : nj = nodeIdAllocatorStart + k₂.val :=
    keysNodup_functional (buildSynthIdMapping_keys_nodup synths) hmj hmem₂
  rw [hni, hnj]
  exact Nat.add_lt_add_left hk12 _

/-- C3 (witness): two synths with equal start offsets but reversed stop
offsets — the earlier-declared synth (stopping later) still receives the
smaller node id. -/
theorem C3_node_id_assignment_witness :
    (1000 : ℕ) < 1001 :=
  (C3_node_id_assignment [⟨0, some 15, 0, []⟩, ⟨0, some 10, 1, []⟩]).2.2
    0 1 ⟨0, some 15, 0, []⟩ ⟨0, some 10, 1, []⟩ 1000 1001
    (by decide) rfl rfl rfl (by decide) (by decide)

/-- Every message in the prioritized portion of a processed bundle renders
a request whose class is in the priority list. -/
theorem mem_prioritized_msgs {reqs : List Request} {x : OscMessage}
    (hx : x ∈ prioritizedRequestTypes.flatMap
      (fun k => (reqs.filter (fun r => r.kind = k)).map OscMessage.cmd)) :
    ∃ r, x = OscMessage.cmd r ∧ r.kind ∈ prioritizedRequestTypes := by
  obtain ⟨k, hk, hx⟩ := List.mem_flatMap.mp hx
  obtain ⟨r, hr, hrx⟩ := List.mem_map.mp hx
  obtain ⟨_, hkind⟩ := List.mem_filter.mp hr
  exact ⟨r, hrx.symm, by rw [of_decide_eq_true hkind]; exact hk⟩

/-- Every class in the priority list precedes the node-free class. -/
theorem kindPriority_le_six_of_mem {k : ReqKind} (hk : k ∈ prioritizedRequestTypes) :
    kindPriority k ≤ 6 := by
  revert hk
  cases k <;> decide

/-- The messages of every bundle `_process_requests` builds respect the
fixed emission priority. -/
theorem processRequests_pairwise (off : ℚ) (reqs : List Request) :
    (processRequests off reqs).contents.Pairwise msgPriorityLE := by
  unfold processRequests
  have hmsgs : (prioritizedRequestTypes.flatMap
      (fun k => (reqs.filter (fun r => r.kind = k)).map OscMessage.cmd)).Pairwise
        msgPriorityLE := by
    refine List.pairwise_flatMap.mpr ⟨?_, ?_⟩
    · intro k _
      refine List.pairwise_of_forall_mem_list ?_
      intro x hx y hy r₁ r₂ hxr hyr
      obtain ⟨rx, hrx, hrxe⟩ := List.mem_map.mp hx
      obtain ⟨ry, hry, hrye⟩ := List.mem_map.mp hy
      obtain ⟨_, hkx⟩ := List.mem_filter.mp hrx
      obtain ⟨_, hky⟩ := List.mem_filter.mp hry
      rw [hxr] at hrxe
      rw [hyr] at hrye
      cases OscMessage.cmd.inj hrxe
      cases OscMessage.cmd.inj hrye
      rw [of_decide_eq_true hkx, of_decide_eq_true hky]
    · have hk : prioritizedRequestTypes.Pairwise
          (fun k₁ k₂ => kindPriority k₁ ≤ kindPriority k₂) := by decide
      refine hk.imp ?_
      intro k₁ k₂ hkk x hx y hy r₁ r₂ hxr hyr
      obtain ⟨rx, hrx, hrxe⟩ := List.mem_map.mp hx
      obtain ⟨ry, hry, hrye⟩ := List.mem_map.mp hy
      obtain ⟨_, hkx⟩ := List.mem_filter.mp hrx
      obtain ⟨_, hky⟩ := List.mem_filter.mp hry
      rw [hxr] at hrxe
      rw [hyr] at hrye
      cases OscMessage.cmd.inj hrxe
      cases OscMessage.cmd.inj hrye
      rw [of_decide_eq_true hkx, of_decide_eq_true hky]
      exact hkk
  by_cases hfree : (reqs.filter (fun r => r.kind = ReqKind.nodeFree)).isEmpty
  · simp only [hfree, if_true]
    exact hmsgs
  · simp only [hfree, if_false]
    refine List.pairwise_append.mpr ⟨hmsgs, List.pairwise_singleton _ _, ?_⟩
    intro x hx y hy
    obtain ⟨r, hxr, hrmem⟩ := mem_prioritized_msgs hx
    intro r₁ r₂ h₁ h₂
    rw [List.mem_singleton] at hy
    rw [hy] at h₂
    cases OscMessage.cmd.inj h₂
    rw [hxr] at h₁
    cases OscMessage.cmd.inj h₁
    simp only [Request.kind, kindPriority]
    exact le_trans (kindPriority_le_six_of_mem hrmem) (by omega)

/-- A terminal bundle holds the single raw message `OscMessage(0)`. -/
theorem processTerminalEvent_contents {finalOffset : ℚ} {ts : Option Timespan}
    {b : OscBundle} (hb : b ∈ processTerminalEvent finalOffset ts) :
    b.contents = [OscMessage.raw 0] := by
  rcases ts with _ | t
  · simp [processTerminalEvent] at hb
  · rcases hstop : t.stopOffset with _ | stop
    · simp [processTerminalEvent, hstop] at hb
    · by_cases hlt : finalOffset < stop
      · simp only [processTerminalEvent, hstop, if_pos hlt, List.mem_singleton] at hb
        rw [hb]
      · simp [processTerminalEvent, hstop, if_neg hlt] at hb

/-- The ok-result of `to_osc_bundles` is the per-offset bundles in
ascending offset order followed by the terminal bundles. -/
theorem toOscBundles_ok {s : Session} {ts : Option Timespan} {bundles : List OscBundle}
    (h : s.toOscBundles ts = Except.ok bundles) :
    ((processTimespanMask s ts).requestMapping ≠ []) ∧
    bundles =
      (((processTimespanMask s ts).requestMapping.insertionSort itemOffsetR).map
        (fun p => processRequests p.1 p.2)) ++
      processTerminalEvent
        ((((processTimespanMask s ts).requestMapping.insertionSort itemOffsetR).map
          (fun p => p.1)).getLast?.getD 0) ts := by
  unfold Session.toOscBundles at h
  by_cases hrm : (processTimespanMask s ts).requestMapping.isEmpty
  · rw [if_pos hrm] at h
    exact absurd h (by simp)
  · rw [if_neg hrm] at h
    exact ⟨fun he => hrm (List.isEmpty_iff.mpr he), (Except.ok.inj h).symm⟩

/-- C1: in every bundle the non-realtime scheduler returns, the commands
are grouped in the fixed priority order definition-receive, bus-set,
group-new, synth-new, bus-mapping, parameter-set, node-free: any two
command messages appear in non-decreasing class priority, so a
definition-receive always precedes a synth-new and node-free comes after
every other command. -/
theorem C1_bundle_priority_order (s : Session) (ts : Option Timespan)
    (bundles : List OscBundle) (h : s.toOscBundles ts = Except.ok bundles) :
    ∀ b ∈ bundles, b.contents.Pairwise msgPriorityLE := by
  obtain ⟨-, hb⟩ := toOscBundles_ok h
  intro b hmem
  rw [hb] at hmem
  rcases List.mem_append.mp hmem with hmem | hmem
  · obtain ⟨p, _, hp⟩ := List.mem_map.mp hmem
    rw [← hp]
    exact processRequests_pairwise p.1 p.2
  · rw [processTerminalEvent_contents hmem]
    exact List.pairwise_singleton _ _

/-- C1 (witness): instantiated on the one-synth session, whose render
succeeds. -/
theorem C1_bundle_priority_order_witness :
    (OscBundle.mk 0
      [OscMessage.cmd (Request.synthDefReceive [0]),
       OscMessage.cmd (Request.synthNew 0 1000)]).contents.Pairwise msgPriorityLE ∧
    (OscBundle.mk 10
      [OscMessage.cmd (Request.nodeFree [1000])]).contents.Pairwise msgPriorityLE :=
  ⟨C1_bundle_priority_order oneSynthSession none
      [OscBundle.mk 0
        [OscMessage.cmd (Request.synthDefReceive [0]),
         OscMessage.cmd (Request.synthNew 0 1000)],
       OscBundle.mk 10 [OscMessage.cmd (Request.nodeFree [1000])]] (by rfl) _
      (List.mem_cons_self _ _),
   C1_bundle_priority_order oneSynthSession none
      [OscBundle.mk 0
        [OscMessage.cmd (Request.synthDefReceive [0]),
         OscMessage.cmd (Request.synthNew 0 1000)],
       OscBundle.mk 10 [OscMessage.cmd (Request.nodeFree [1000])]] (by rfl) _
      (List.mem_cons_of_mem _ (List.mem_cons_self _ _))⟩

/-- Unfolding equation: `find` on the empty map. -/
theorem RequestMap.find_nil (o : ℚ) : RequestMap.find [] o = [] := rfl

/-- Unfolding equation: `find` on a cons. -/
theorem RequestMap.find_cons (k : ℚ) (l : List Request) (rest : RequestMap) (o : ℚ) :
    RequestMap.find ((k, l) :: rest) o =
      if k = o then l else RequestMap.find rest o := rfl

/-- Unfolding equation: `add` on the empty map. -/
theorem RequestMap.add_nil (off : ℚ) (rs : List Request) :
    RequestMap.add [] off rs = [(off, rs)] := rfl

/-- Unfolding equation: `add` on a cons. -/
theorem RequestMap.add_cons (k : ℚ) (l : List Request) (rest : RequestMap)
    (off : ℚ) (rs : List Request) :
    RequestMap.add ((k, l) :: rest) off rs =
      if k = off then (k, l ++ rs) :: rest
      else (k, l) :: RequestMap.add rest off rs := rfl

/-- `setdefault`-append changes a request map's value only at its own
key, where it appends. -/
theorem RequestMap.find_add (m : RequestMap) (off o : ℚ) (rs : List Request) :
    RequestMap.find (m.add off rs) o =
      RequestMap.find m o ++ (if o = off then rs else []) := by
  induction m with
  | nil =>
      rw [RequestMap.add_nil, RequestMap.find_cons, RequestMap.find_nil]
      by_cases h : o = off
      · rw [if_pos h.symm, if_pos h]
        simp
      · rw [if_neg (fun he => h he.symm), if_neg h]
        simp
  | cons p rest ih =>
      obtain ⟨k, l⟩ := p
      rw [RequestMap.add_cons]
      by_cases h : k = off
      · rw [if_pos h, RequestMap.find_cons, RequestMap.find_cons]
        by_cases ho : k = o
        · have heq : o = off := ho.symm.trans h
          rw [if_pos ho, if_pos ho, if_pos heq]
        · have hne : ¬o = off := fun he => ho (h.trans he.symm)
          rw [if_neg ho, if_neg ho, if_neg hne]
          simp
      · rw [if_neg h, RequestMap.find_cons, RequestMap.find_cons]
        by_cases ho : k = o
        · have hne : ¬o = off := fun he => h (ho.trans he)
          rw [if_pos ho, if_pos ho, if_neg hne]
          simp
        · rw [if_neg ho, if_neg ho]
          exact ih

/-- The keys after a `setdefault`-append are the old keys plus the added
one. -/
theorem RequestMap.mem_keys_add (m : RequestMap) (off o : ℚ) (rs : List Request) :
    o ∈ (m.add off rs).map Prod.fst ↔ o ∈ m.map Prod.fst ∨ o = off := by
  induction m with
  | nil =>
      rw [RequestMap.add_nil]
      simp [eq_comm]
  | cons p rest ih =>
      obtain ⟨k, l⟩ := p
      rw [RequestMap.add_cons]
      by_cases h : k = off
      · rw [if_pos h]
        subst h
        simp only [List.map_cons, List.mem_cons]
        tauto
      · rw [if_neg h]
        simp only [List.map_cons, List.mem_cons, ih]
        tauto

/-- A `setdefault`-append never duplicates keys. -/
theorem RequestMap.nodup_keys_add (m : RequestMap) (off : ℚ) (rs : List Request)
    (h : (m.map Prod.fst).Nodup) : ((m.add off rs).map Prod.fst).Nodup := by
  induction m with
  | nil =>
      rw [RequestMap.add_nil]
      simp
  | cons p rest ih =>
      obtain ⟨k, l⟩ := p
      simp only [List.map_cons, List.nodup_cons] at h
      rw [RequestMap.add_cons]
      by_cases he : k = off
      · rw [if_pos he]
        simp only [List.map_cons, List.nodup_cons]
        exact h
      · rw [if_neg he]
        simp only [List.map_cons, List.nodup_cons]
        refine ⟨?_, ih h.2⟩
        intro hmem
        rcases (RequestMap.mem_keys_add rest off k rs).mp hmem with hmem | hmem
        · exact h.1 hmem
        · exact he hmem

/-- A present key's first entry carries its `find` value. -/
theorem RequestMap.keys_mem_find (m : RequestMap) (o : ℚ)
    (h : o ∈ m.map Prod.fst) : (o, m.find o) ∈ m := by
  induction m with
  | nil => cases h
  | cons p rest ih =>
      obtain ⟨k, l⟩ := p
      rw [RequestMap.find_cons]
      by_cases he : k = o
      · rw [if_pos he]
        subst he
        exact List.mem_cons_self _ _
      · rw [if_neg he]
        refine List.mem_cons_of_mem _ (ih ?_)
        simp only [List.map_cons, List.mem_cons] at h
        rcases h with h | h
        · exact absurd h.symm he
        · exact h

/-- Folding `setdefault`-appends accumulates, per offset, exactly the
matching contributions in order. -/
theorem find_foldl_add {β : Type _} (f : β → ℚ) (g : β → List Request) :
    ∀ (cs : List β) (m : RequestMap) (o : ℚ),
      RequestMap.find (cs.foldl (fun m c => RequestMap.add m (f c) (g c)) m) o =
        RequestMap.find m o ++ (cs.filter (fun c => f c = o)).flatMap g := by
  intro cs
  induction cs with
  | nil =>
      intro m o
      simp
  | cons c rest ih =>
      intro m o
      simp only [List.foldl_cons]
      rw [ih, RequestMap.find_add]
      by_cases h : f c = o
      · rw [List.filter_cons_of_pos (by simpa using h), if_pos h.symm]
        simp
      · rw [List.filter_cons_of_neg (by simpa using h), if_neg (fun he => h he.symm)]
        simp

/-- Folding `setdefault`-appends creates exactly the contributed keys. -/
theorem mem_keys_foldl_add {β : Type _} (f : β → ℚ) (g : β → List Request) :
    ∀ (cs : List β) (m : RequestMap) (o : ℚ),
      (o ∈ (cs.foldl (fun m c => RequestMap.add m (f c) (g c)) m).map Prod.fst ↔
        o ∈ m.map Prod.fst ∨ o ∈ cs.map f) := by
  intro cs
  induction cs with
  | nil =>
      intro m o
      simp
  | cons c rest ih =>
      intro m o
      simp only [List.foldl_cons, List.map_cons, List.mem_cons]
      rw [ih, RequestMap.mem_keys_add]
      tauto

/-- Folding `setdefault`-appends preserves key distinctness. -/
theorem nodup_keys_foldl_add {β : Type _} (f : β → ℚ) (g : β → List Request) :
    ∀ (cs : List β) (m : RequestMap), (m.map Prod.fst).Nodup →
      ((cs.foldl (fun m c => RequestMap.add m (f c) (g c)) m).map Prod.fst).Nodup := by
  intro cs
  induction cs with
  | nil =>
      intro m h
      exact h
  | cons c rest ih =>
      intro m h
      simp only [List.foldl_cons]
      exact ih _ (RequestMap.nodup_keys_add m (f c) (g c) h)

/-- A fold over a flattened list is the nested fold. -/
theorem foldl_flatMap_eq {α β γ : Type _} (f : γ → List β) (step : α → β → α) :
    ∀ (l : List γ) (a : α),
      (l.flatMap f).foldl step a = l.foldl (fun a c => (f c).foldl step a) a := by
  intro l
  induction l with
  | nil =>
      intro a
      rfl
  | cons c rest ih =>
      intro c0
      simp only [List.flatMap_cons, List.foldl_append, List.foldl_cons]
      exact ih _

/-- `_collect_bus_requests` appends exactly the per-offset coalesced
bus-set requests. -/
theorem find_collectBusRequests (s : Session) (m : RequestMap) (o : ℚ) :
    (collectBusRequests s m).find o = m.find o ++ busRequestsAt s o := by
  unfold collectBusRequests busRequestsAt
  exact find_foldl_add (fun p => p.1)
    (fun p => [Request.controlBusSet (p.2.insertionSort pairIndexR)])
    (busEventsByOffset s) m o

/-- `_collect_synthdef_requests` appends exactly the per-offset
definition-receive requests. -/
theorem find_collectSynthdefRequests (synths : List Synth) (m : RequestMap) (o : ℚ) :
    (collectSynthdefRequests synths m).find o = m.find o ++ synthdefRequestsAt synths o := by
  unfold collectSynthdefRequests synthdefRequestsAt
  exact find_foldl_add (fun p => p.1)
    (fun p => [Request.synthDefReceive (p.2.insertionSort (· ≤ ·))])
    (offsetsToSynthdefs synths) m o

/-- `_collect_synth_requests` is the fold of its flattened per-offset
contributions. -/
theorem collectSynthRequests_eq (synths : List Synth) (m : RequestMap) :
    collectSynthRequests synths m =
      (synthContribs synths).foldl (fun m q => RequestMap.add m q.1 q.2) m := by
  unfold collectSynthRequests synthContribs
  exact (foldl_flatMap_eq _ _ _ _).symm

/-- `_collect_synth_requests` appends exactly the per-offset synth
requests. -/
theorem find_collectSynthRequests (synths : List Synth) (m : RequestMap) (o : ℚ) :
    (collectSynthRequests synths m).find o = m.find o ++ synthRequestsAt synths o := by
  rw [collectSynthRequests_eq]
  unfold synthRequestsAt
  exact find_foldl_add (fun q => q.1) (fun q => q.2) (synthContribs synths) m o

/-- The fully collected request map reads, at every offset, as the bus
requests followed by the definition-receive requests followed by the
synth requests of that offset. -/
theorem find_requestMapping (s : Session) (o : ℚ) :
    s.requestMapping.find o =
      busRequestsAt s o ++ synthdefRequestsAt s.synths o ++ synthRequestsAt s.synths o := by
  unfold Session.requestMapping
  rw [find_collectSynthRequests, find_collectSynthdefRequests, find_collectBusRequests]
  simp [RequestMap.find_nil]

/-- The offsets present in the collected request map are exactly the
offsets contributed by the three collectors. -/
theorem mem_keys_requestMapping (s : Session) (o : ℚ) :
    o ∈ s.requestMapping.map Prod.fst ↔
      o ∈ (busEventsByOffset s).map Prod.fst ∨
      o ∈ (offsetsToSynthdefs s.synths).map Prod.fst ∨
      o ∈ (synthContribs s.synths).map Prod.fst := by
  unfold Session.requestMapping
  rw [collectSynthRequests_eq]
  rw [mem_keys_foldl_add (fun q : ℚ × List Request => q.1) (fun q => q.2)]
  unfold collectSynthdefRequests
  rw [mem_keys_foldl_add (fun p : ℚ × List ℕ => p.1)
    (fun p => [Request.synthDefReceive (p.2.insertionSort (· ≤ ·))])]
  unfold collectBusRequests
  rw [mem_keys_foldl_add (fun p : ℚ × List (ℕ × ℚ) => p.1)
    (fun p => [Request.controlBusSet (p.2.insertionSort pairIndexR)])]
  simp only [List.map_nil, List.not_mem_nil, false_or]
  tauto

/-- The collected request map has distinct offset keys. -/
theorem nodup_keys_requestMapping (s : Session) :
    (s.requestMapping.map Prod.fst).Nodup := by
  unfold Session.requestMapping
  rw [collectSynthRequests_eq]
  refine nodup_keys_foldl_add (fun q : ℚ × List Request => q.1) (fun q => q.2) _ _ ?_
  unfold collectSynthdefRequests
  refine nodup_keys_foldl_add (fun p : ℚ × List ℕ => p.1)
    (fun p => [Request.synthDefReceive (p.2.insertionSort (· ≤ ·))]) _ _ ?_
  unfold collectBusRequests
  refine nodup_keys_foldl_add (fun p : ℚ × List (ℕ × ℚ) => p.1)
    (fun p => [Request.controlBusSet (p.2.insertionSort pairIndexR)]) _ _ ?_
  simp

/-- In a `≤`-sorted list of rationals every element is at most the last
one. -/
theorem mem_le_getLastD (d : ℚ) :
    ∀ {l : List ℚ}, l.Pairwise (· ≤ ·) → ∀ {x : ℚ}, x ∈ l → x ≤ l.getLast?.getD d
  | [], _, x, hx => absurd hx (List.not_mem_nil x)
  | [a], _, x, hx => by
      simp only [List.mem_singleton] at hx
      simp [hx]
  | a :: b :: rest, h, x, hx => by
      rw [List.getLast?_cons_cons]
      rcases List.mem_cons.mp hx with rfl | hx'
      · have hab : x ≤ b := (List.pairwise_cons.mp h).1 b (List.mem_cons_self _ _)
        have hb : b ≤ ((b :: rest).getLast?).getD d :=
          mem_le_getLastD d (List.pairwise_cons.mp h).2 (List.mem_cons_self _ _)
        exact hab.trans hb
      · exact mem_le_getLastD d (List.pairwise_cons.mp h).2 hx'

/-- The per-offset keys of the sorted request map are strictly
increasing. -/
theorem sorted_keys_pairwise_lt (s : Session) :
    ((s.requestMapping.insertionSort itemOffsetR).map Prod.fst).Pairwise (· < ·) := by
  have hsorted : (s.requestMapping.insertionSort itemOffsetR).Pairwise itemOffsetR :=
    List.sorted_insertionSort itemOffsetR _
  have hperm : List.Perm (s.requestMapping.insertionSort itemOffsetR) s.requestMapping :=
    List.perm_insertionSort _ _
  have hnodup : ((s.requestMapping.insertionSort itemOffsetR).map Prod.fst).Nodup :=
    ((hperm.map Prod.fst).nodup_iff).mpr (nodup_keys_requestMapping s)
  have hne : (s.requestMapping.insertionSort itemOffsetR).Pairwise
      (fun a b => a.1 ≠ b.1) := List.pairwise_map.mp hnodup
  refine List.pairwise_map.mpr ?_
  exact (hsorted.and hne).imp (fun h => lt_of_le_of_ne h.1 h.2)

/-- A bundle of the per-offset portion is determined by a present offset
and that offset's collected requests. -/
theorem mem_map_processRequests {s : Session} {b : OscBundle} :
    (b ∈ (s.requestMapping.insertionSort itemOffsetR).map
        (fun p => processRequests p.1 p.2)) ↔
      ∃ o, o ∈ s.requestMapping.map Prod.fst ∧
        b = processRequests o (s.requestMapping.find o) := by
  have hperm : List.Perm (s.requestMapping.insertionSort itemOffsetR) s.requestMapping :=
    List.perm_insertionSort _ _
  constructor
  · intro h
    obtain ⟨p, hp, hpb⟩ := List.mem_map.mp h
    have hpm : p ∈ s.requestMapping := hperm.mem_iff.mp hp
    obtain ⟨o, reqs⟩ := p
    have hkey : o ∈ s.requestMapping.map Prod.fst :=
      List.mem_map_of_mem Prod.fst hpm
    have hfind : reqs = s.requestMapping.find o :=
      keysNodup_functional (nodup_keys_requestMapping s) hpm
        (RequestMap.keys_mem_find _ _ hkey)
    exact ⟨o, hkey, by rw [← hpb, hfind]⟩
  · intro ⟨o, hkey, hb⟩
    refine List.mem_map.mpr ⟨(o, s.requestMapping.find o), ?_, hb.symm⟩
    exact hperm.mem_iff.mpr (RequestMap.keys_mem_find _ _ hkey)

/-- A terminal bundle's timestamp lies strictly after the final emitted
offset. -/
theorem processTerminalEvent_timestamp {finalOffset : ℚ} {ts : Option Timespan}
    {b : OscBundle} (hb : b ∈ processTerminalEvent finalOffset ts) :
    finalOffset < b.timestamp := by
  rcases ts with _ | t
  · simp [processTerminalEvent] at hb
  · rcases hstop : t.stopOffset with _ | stop
    · simp [processTerminalEvent, hstop] at hb
    · by_cases hlt : finalOffset < stop
      · simp only [processTerminalEvent, hstop, if_pos hlt, List.mem_singleton] at hb
        rw [hb]
        exact hlt
      · simp [processTerminalEvent, hstop, if_neg hlt] at hb

/-- A terminal-bundle list is empty or a singleton, so any pairwise
relation holds on its timestamps. -/
theorem processTerminalEvent_pairwise (f : ℚ) (ts : Option Timespan)
    (R : ℚ → ℚ → Prop) :
    ((processTerminalEvent f ts).map (fun b => b.timestamp)).Pairwise R := by
  rcases ts with _ | t
  · simp [processTerminalEvent]
  · rcases hstop : t.stopOffset with _ | stop
    · simp [processTerminalEvent, hstop]
    · by_cases hlt : f < stop
      · simp [processTerminalEvent, hstop, hlt]
      · simp [processTerminalEvent, hstop, hlt]

/-- The timestamps of the returned bundles are strictly increasing. -/
theorem toOscBundles_timestamps_sorted {s : Session} {ts : Option Timespan}
    {bundles : List OscBundle} (h : s.toOscBundles ts = Except.ok bundles) :
    (bundles.map (fun b => b.timestamp)).Pairwise (· < ·) := by
  obtain ⟨-, hb⟩ := toOscBundles_ok h
  rw [hb, List.map_append, List.map_map]
  have hcomp : ((fun b : OscBundle => b.timestamp) ∘
      fun p : ℚ × List Request => processRequests p.1 p.2) = Prod.fst := rfl
  rw [hcomp]
  set s' := processTimespanMask s ts with hs'
  refine List.pairwise_append.mpr ⟨sorted_keys_pairwise_lt s', ?_, ?_⟩
  · exact processTerminalEvent_pairwise _ ts _
  · intro x hx y hy
    obtain ⟨b', hb', hx'⟩ := List.mem_map.mp hy
    have hlast : x ≤ ((s'.requestMapping.insertionSort itemOffsetR).map
        Prod.fst).getLast?.getD 0 := by
      refine mem_le_getLastD 0 ?_ hx
      exact (sorted_keys_pairwise_lt s').imp le_of_lt
    have hterm := processTerminalEvent_timestamp hb'
    rw [← hx']
    exact lt_of_le_of_lt hlast hterm

/-- The datagram fold is the concatenation of length-prefixed bundle
encodings. -/
theorem toDatagram_foldl_eq (l : List OscBundle) :
    ∀ acc : List ℕ,
      l.foldl (fun acc b => acc ++ be32 b.toDatagramBytes.length ++ b.toDatagramBytes)
        acc =
      acc ++ l.flatMap (fun b => be32 b.toDatagramBytes.length ++ b.toDatagramBytes) := by
  induction l with
  | nil =>
      intro acc
      simp
  | cons b rest ih =>
      intro acc
      rw [List.foldl_cons, ih, List.flatMap_cons]
      simp [List.append_assoc]

/-- C8: the datagram is the concatenation, bundle by bundle in ascending
timestamp order, of a 4-byte big-endian length prefix (the byte length
of the bundle's wire encoding) followed by that encoding. -/
theorem C8_datagram_framing (s : Session) (ts : Option Timespan)
    (bundles : List OscBundle) (h : s.toOscBundles ts = Except.ok bundles) :
    s.toDatagram ts = Except.ok (bundles.flatMap
      (fun b => be32 b.toDatagramBytes.length ++ b.toDatagramBytes)) ∧
    (bundles.map (fun b => b.timestamp)).Pairwise (· < ·) := by
  refine ⟨?_, toOscBundles_timestamps_sorted h⟩
  unfold Session.toDatagram
  rw [h]
  show Except.ok (bundles.foldl
      (fun acc b => acc ++ be32 b.toDatagramBytes.length ++ b.toDatagramBytes) []) = _
  rw [toDatagram_foldl_eq]
  simp

/-- C8 (witness): the one-synth session's datagram is its two bundles,
each length-prefixed, at ascending timestamps 0 and 10. -/
theorem C8_datagram_framing_witness :
    oneSynthSession.toDatagram none = Except.ok
      (([OscBundle.mk 0
          [OscMessage.cmd (Request.synthDefReceive [0]),
           OscMessage.cmd (Request.synthNew 0 1000)],
        OscBundle.mk 10 [OscMessage.cmd (Request.nodeFree [1000])]] :
          List OscBundle).flatMap
        (fun b => be32 b.toDatagramBytes.length ++ b.toDatagramBytes)) ∧
    (([OscBundle.mk 0
          [OscMessage.cmd (Request.synthDefReceive [0]),
           OscMessage.cmd (Request.synthNew 0 1000)],
        OscBundle.mk 10 [OscMessage.cmd (Request.nodeFree [1000])]] :
          List OscBundle).map (fun b => b.timestamp)).Pairwise (· < ·) :=
  C8_datagram_framing oneSynthSession none _ (by rfl)

/-- A request's class is node-free exactly when it is a node-free
request. -/
theorem kind_eq_nodeFree_iff (r : Request) :
    r.kind = ReqKind.nodeFree ↔ ∃ ids, r = Request.nodeFree ids := by
  cases r <;> simp [Request.kind]

/-- Flattening conditional singletons is a filtered map. -/
theorem flatMap_ite_singleton {α β : Type _} (c : α → Prop) [DecidablePred c]
    (g : α → β) :
    ∀ l : List α, (l.flatMap (fun a => if c a then [g a] else [])) =
      (l.filter (fun a => decide (c a))).map g := by
  intro l
  induction l with
  | nil => rfl
  | cons a rest ih =>
      by_cases h : c a <;> simp [h, ih]

/-- Per synth, the node-free requests contributed at offset `t` are one
request freeing its node exactly when the synth stops at `t`. -/
theorem collectRequests_nodeFree (syn : Synth) (n : ℕ) (t : ℚ) :
    (((syn.collectRequests n).filter (fun q => q.1 = t)).flatMap (fun q => q.2)).filter
      (fun r => r.kind = ReqKind.nodeFree) =
      if syn.stopOffset = some t then [Request.nodeFree [n]] else [] := by
  unfold Synth.collectRequests
  rw [List.filter_append, List.flatMap_append, List.filter_append]
  have h1 : ((((syn.startOffset, [Request.synthNew syn.synthdef n]) ::
      syn.paramEvents.map (fun ev => (ev.1, [Request.nodeSet n ev.2.1 ev.2.2]))).filter
        (fun q => q.1 = t)).flatMap (fun q => q.2)).filter
          (fun r => r.kind = ReqKind.nodeFree) = [] := by
    rw [List.filter_eq_nil_iff]
    intro r hr
    obtain ⟨q, hq, hrq⟩ := List.mem_flatMap.mp hr
    have hq' := (List.mem_filter.mp hq).1
    rcases List.mem_cons.mp hq' with hq' | hq'
    · rw [hq'] at hrq
      simp only [List.mem_singleton] at hrq
      rw [hrq]
      simp [Request.kind]
    · obtain ⟨ev, _, hev⟩ := List.mem_map.mp hq'
      rw [← hev] at hrq
      simp only [List.mem_singleton] at hrq
      rw [hrq]
      simp [Request.kind]
  rw [h1, List.nil_append]
  rcases hstop : syn.stopOffset with _ | stop
  · simp
  · by_cases ht : stop = t
    · subst ht
      simp [Request.kind]
    · have : ¬(some stop = some t) := by simpa using ht
      simp [ht, this, Request.kind]

/-- The node-free requests collected at offset `t` are exactly one per
visited synth stopping at `t`, in visiting order. -/
theorem synthRequestsAt_nodeFree (synths : List Synth) (t : ℚ) :
    (synthRequestsAt synths t).filter (fun r => r.kind = ReqKind.nodeFree) =
      ((sortedSynthsForCollect synths).filter
        (fun p => p.2.stopOffset = some t)).map
          (fun p => Request.nodeFree [nodeIdOf synths p.1]) := by
  unfold synthRequestsAt synthContribs
  rw [List.filter_flatMap, List.filter_flatMap, List.flatMap_assoc]
  have hcongr : ∀ p ∈ sortedSynthsForCollect synths,
      ((p.2.collectRequests (nodeIdOf synths p.1)).filter
        (fun q => decide (q.1 = t))).flatMap
          (fun a => a.2.filter (fun r => decide (r.kind = ReqKind.nodeFree))) =
        (if p.2.stopOffset = some t
          then [Request.nodeFree [nodeIdOf synths p.1]] else []) := by
    intro p _
    rw [← List.filter_flatMap]
    exact collectRequests_nodeFree p.2 (nodeIdOf synths p.1) t
  rw [List.flatMap_congr hcongr]
  exact flatMap_ite_singleton (fun p : ℕ × Synth => p.2.stopOffset = some t)
    (fun p => Request.nodeFree [nodeIdOf synths p.1]) _

/-- Bus collection contributes only bus-set requests. -/
theorem busRequestsAt_kinds (s : Session) (t : ℚ) :
    ∀ r ∈ busRequestsAt s t, r.kind = ReqKind.busSet := by
  intro r hr
  obtain ⟨p, _, hrp⟩ := List.mem_flatMap.mp hr
  simp only [List.mem_singleton] at hrp
  rw [hrp]
  rfl

/-- Synthdef collection contributes only definition-receive requests. -/
theorem synthdefRequestsAt_kinds (synths : List Synth) (t : ℚ) :
    ∀ r ∈ synthdefRequestsAt synths t, r.kind = ReqKind.defReceive := by
  intro r hr
  obtain ⟨p, _, hrp⟩ := List.mem_flatMap.mp hr
  simp only [List.mem_singleton] at hrp
  rw [hrp]
  rfl

/-- The node-free requests of the whole collected offset are those of the
synth collector. -/
theorem find_requestMapping_nodeFree (s : Session) (t : ℚ) :
    (s.requestMapping.find t).filter (fun r => r.kind = ReqKind.nodeFree) =
      (synthRequestsAt s.synths t).filter (fun r => r.kind = ReqKind.nodeFree) := by
  rw [find_requestMapping, List.filter_append, List.filter_append]
  have h1 : (busRequestsAt s t).filter (fun r => r.kind = ReqKind.nodeFree) = [] := by
    rw [List.filter_eq_nil_iff]
    intro r hr
    rw [busRequestsAt_kinds s t r hr]
    simp
  have h2 : (synthdefRequestsAt s.synths t).filter
      (fun r => r.kind = ReqKind.nodeFree) = [] := by
    rw [List.filter_eq_nil_iff]
    intro r hr
    rw [synthdefRequestsAt_kinds s.synths t r hr]
    simp
  rw [h1, h2]
  simp

/-- The processed bundle's message list, explicitly. -/
theorem processRequests_contents (off : ℚ) (reqs : List Request) :
    (processRequests off reqs).contents =
      (prioritizedRequestTypes.flatMap
        (fun k => (reqs.filter (fun r => r.kind = k)).map OscMessage.cmd)) ++
      (if (reqs.filter (fun r => r.kind = ReqKind.nodeFree)).isEmpty then []
       else [OscMessage.cmd (Request.nodeFree
         ((reqs.filter (fun r => r.kind = ReqKind.nodeFree)).flatMap
           Request.freeIds))]) := by
  unfold processRequests
  by_cases h : (reqs.filter (fun r => r.kind = ReqKind.nodeFree)).isEmpty <;>
    simp [h]

/-- The prioritized portion holds no node-free message. -/
theorem msgs0_no_nodeFree (reqs : List Request) :
    (prioritizedRequestTypes.flatMap
      (fun k => (reqs.filter (fun r => r.kind = k)).map OscMessage.cmd)).filter
        isNodeFreeMsg = [] := by
  rw [List.filter_eq_nil_iff]
  intro m hm
  obtain ⟨r, hmr, hk⟩ := mem_prioritized_msgs hm
  rw [hmr]
  cases r
  case nodeFree ids =>
    intro _
    exact absurd (show ReqKind.nodeFree ∈ prioritizedRequestTypes from hk) (by decide)
  all_goals simp [isNodeFreeMsg]

/-- The node-free messages of a processed bundle: exactly the single
coalesced command when any node-free request is present. -/
theorem processRequests_nodeFree_msgs (off : ℚ) (reqs : List Request) :
    (processRequests off reqs).contents.filter isNodeFreeMsg =
      (if (reqs.filter (fun r => r.kind = ReqKind.nodeFree)).isEmpty then []
       else [OscMessage.cmd (Request.nodeFree
         ((reqs.filter (fun r => r.kind = ReqKind.nodeFree)).flatMap
           Request.freeIds))]) := by
  rw [processRequests_contents, List.filter_append, msgs0_no_nodeFree,
    List.nil_append]
  by_cases h : (reqs.filter (fun r => r.kind = ReqKind.nodeFree)).isEmpty <;>
    simp [h, isNodeFreeMsg]

/-- Any node-free message of a processed bundle carries the coalesced id
list. -/
theorem mem_contents_nodeFree {off : ℚ} {reqs : List Request} {ids : List ℕ}
    (h : OscMessage.cmd (Request.nodeFree ids) ∈ (processRequests off reqs).contents) :
    ids = (reqs.filter (fun r => r.kind = ReqKind.nodeFree)).flatMap Request.freeIds := by
  rw [processRequests_contents] at h
  rcases List.mem_append.mp h with h | h
  · obtain ⟨r, hmr, hk⟩ := mem_prioritized_msgs h
    cases OscMessage.cmd.inj hmr
    have hk' : ReqKind.nodeFree ∈ prioritizedRequestTypes := hk
    exact absurd hk' (by decide)
  · by_cases hfree : (reqs.filter (fun r => r.kind = ReqKind.nodeFree)).isEmpty
    · rw [if_pos hfree] at h
      cases h
    · rw [if_neg hfree] at h
      rw [List.mem_singleton] at h
      exact Request.nodeFree.inj (OscMessage.cmd.inj h)

/-- Flattening elementwise singletons is a map. -/
theorem flatMap_singleton_eq_map {α β : Type _} (g : α → β) (l : List α) :
    (l.flatMap fun a => [g a]) = l.map g := by
  induction l with
  | nil => rfl
  | cons a rest ih => simp [ih]

/-- A list of bundles with distinct timestamps holding one with timestamp
`t` has exactly one such bundle. -/
theorem filter_timestamp_length_one {bundles : List OscBundle} {t : ℚ}
    (hnodup : (bundles.map (fun b => b.timestamp)).Nodup)
    (hex : ∃ b ∈ bundles, b.timestamp = t) :
    (bundles.filter (fun b => b.timestamp = t)).length = 1 := by
  induction bundles with
  | nil => obtain ⟨b, hb, _⟩ := hex; cases hb
  | cons b rest ih =>
      simp only [List.map_cons, List.nodup_cons] at hnodup
      by_cases hbt : b.timestamp = t
      · rw [List.filter_cons_of_pos (by simpa using hbt)]
        have hrest : rest.filter (fun b => b.timestamp = t) = [] := by
          rw [List.filter_eq_nil_iff]
          intro b' hb' hbt'
          apply hnodup.1
          rw [hbt, ← of_decide_eq_true hbt']
          exact List.mem_map_of_mem (fun b => b.timestamp) hb'
        rw [hrest]
        rfl
      · rw [List.filter_cons_of_neg (by simpa using hbt)]
        refine ih hnodup.2 ?_
        obtain ⟨b', hb', hbt'⟩ := hex
        rcases List.mem_cons.mp hb' with rfl | hb'
        · exact absurd hbt' hbt
        · exact ⟨b', hb', hbt'⟩

/-- C6: at every offset where at least one synth stops, the bundle at
that offset exists, is unique, contains exactly one node-free command,
and that command lists precisely the node ids of all synths stopping at
that offset. -/
theorem C6_node_free_coalescing (s : Session) (t : ℚ) (bundles : List OscBundle)
    (h : s.toOscBundles none = Except.ok bundles)
    (hstop : ∃ syn ∈ s.synths, syn.stopOffset = some t) :
    (bundles.filter (fun b => b.timestamp = t)).length = 1 ∧
    ∀ b ∈ bundles, b.timestamp = t →
      (b.contents.filter isNodeFreeMsg).length = 1 ∧
      ∀ ids, OscMessage.cmd (Request.nodeFree ids) ∈ b.contents →
        List.Perm ids ((s.synths.enum.filter
          (fun p => p.2.stopOffset = some t)).map
            (fun p => nodeIdOf s.synths p.1)) := by
  obtain ⟨-, hb⟩ := toOscBundles_ok h
  have hmask : processTimespanMask s none = s := rfl
  rw [hmask] at hb
  have hterm : ∀ f : ℚ, processTerminalEvent f none = [] := fun _ => rfl
  rw [hterm, List.append_nil] at hb
  obtain ⟨syn, hsynmem, hsynstop⟩ := hstop
  obtain ⟨k, hk⟩ := List.mem_iff_get.mp hsynmem
  have henum : (k.val, syn) ∈ s.synths.enum := by
    refine List.mem_enum_iff_getElem?.mpr ?_
    rw [List.getElem?_eq_getElem k.isLt, ← List.get_eq_getElem, hk]
  have hsortmem : (k.val, syn) ∈ sortedSynthsForCollect s.synths :=
    (List.perm_insertionSort _ _).mem_iff.mpr henum
  have hcontrib : (t, [Request.nodeFree [nodeIdOf s.synths k.val]]) ∈
      synthContribs s.synths := by
    unfold synthContribs
    refine List.mem_flatMap.mpr ⟨(k.val, syn), hsortmem, ?_⟩
    unfold Synth.collectRequests
    rw [hsynstop]
    simp
  have hkeys : t ∈ s.requestMapping.map Prod.fst :=
    (mem_keys_requestMapping s t).mpr
      (Or.inr (Or.inr (List.mem_map_of_mem Prod.fst hcontrib)))
  have hbt_mem : processRequests t (s.requestMapping.find t) ∈ bundles := by
    rw [hb]
    exact mem_map_processRequests.mpr ⟨t, hkeys, rfl⟩
  have hfrees : ((s.requestMapping.find t).filter
      (fun r => r.kind = ReqKind.nodeFree)) =
      ((sortedSynthsForCollect s.synths).filter
        (fun p => p.2.stopOffset = some t)).map
          (fun p => Request.nodeFree [nodeIdOf s.synths p.1]) := by
    rw [find_requestMapping_nodeFree, synthRequestsAt_nodeFree]
  have hfiltmem : (k.val, syn) ∈ (sortedSynthsForCollect s.synths).filter
      (fun p => p.2.stopOffset = some t) :=
    List.mem_filter.mpr ⟨hsortmem, by simp [hsynstop]⟩
  have hfrees_ne : ¬((s.requestMapping.find t).filter
      (fun r => r.kind = ReqKind.nodeFree)).isEmpty = true := by
    rw [hfrees]
    intro hempty
    rw [List.isEmpty_iff] at hempty
    exact absurd hempty
      (List.ne_nil_of_mem
        (List.mem_map_of_mem (fun p => Request.nodeFree [nodeIdOf s.synths p.1])
          hfiltmem))
  refine ⟨?_, ?_⟩
  · refine filter_timestamp_length_one ?_ ⟨_, hbt_mem, rfl⟩
    exact (toOscBundles_timestamps_sorted h).imp (fun hlt => ne_of_lt hlt)
  · intro b hmem hts
    rw [hb] at hmem
    obtain ⟨o, hok, hbo⟩ := mem_map_processRequests.mp hmem
    have hot : o = t := by
      rw [hbo] at hts
      exact hts
    subst hot
    rw [hbo]
    constructor
    · rw [processRequests_nodeFree_msgs, if_neg hfrees_ne]
      rfl
    · intro ids hidsmem
      have hids := mem_contents_nodeFree hidsmem
      rw [hfrees, List.flatMap_map] at hids
      simp only [Request.freeIds] at hids
      rw [flatMap_singleton_eq_map] at hids
      rw [hids]
      exact (((List.perm_insertionSort (collectOrderR s.synths) s.synths.enum).filter
        _).map _)

/-- C6 (witness): both synths of `twoSynthSession` stop at 10; the single
bundle at 10 holds one node-free command listing both node ids. -/
theorem C6_node_free_coalescing_witness :
    (([OscBundle.mk 0
        [OscMessage.cmd (Request.synthDefReceive [0, 1]),
         OscMessage.cmd (Request.synthNew 0 1000),
         OscMessage.cmd (Request.synthNew 1 1001)],
      OscBundle.mk 10 [OscMessage.cmd (Request.nodeFree [1000, 1001])]] :
        List OscBundle).filter (fun b => b.timestamp = 10)).length = 1 ∧
    ∀ b ∈ ([OscBundle.mk 0
        [OscMessage.cmd (Request.synthDefReceive [0, 1]),
         OscMessage.cmd (Request.synthNew 0 1000),
         OscMessage.cmd (Request.synthNew 1 1001)],
      OscBundle.mk 10 [OscMessage.cmd (Request.nodeFree [1000, 1001])]] :
        List OscBundle), b.timestamp = 10 →
      (b.contents.filter isNodeFreeMsg).length = 1 ∧
      ∀ ids, OscMessage.cmd (Request.nodeFree ids) ∈ b.contents →
        List.Perm ids ((twoSynthSession.synths.enum.filter
          (fun p => p.2.stopOffset = some 10)).map
            (fun p => nodeIdOf twoSynthSession.synths p.1)) :=
  C6_node_free_coalescing twoSynthSession 10 _ (by rfl)
    ⟨⟨0, some 10, 0, []⟩, by decide, rfl⟩

/-- Unfolding equation for association-list lookup on a cons. -/
theorem lookup_cons_eq {κ ν : Type _} [DecidableEq κ] (k' : κ) (v : ν)
    (rest : List (κ × ν)) (k : κ) :
    ((k', v) :: rest).lookup k = if k = k' then some v else rest.lookup k := by
  by_cases h : k = k'
  · subst h
    simp [List.lookup]
  · cases hbeq : k == k' with
    | true => exact absurd (eq_of_beq hbeq) h
    | false => simp [List.lookup, hbeq, h]

/-- A key is found exactly when it occurs among the keys. -/
theorem lookup_isSome_iff {κ ν : Type _} [DecidableEq κ] (m : List (κ × ν)) (k : κ) :
    (m.lookup k).isSome ↔ k ∈ m.map Prod.fst := by
  induction m with
  | nil => simp [List.lookup]
  | cons p rest ih =>
      obtain ⟨k', v⟩ := p
      rw [lookup_cons_eq]
      by_cases h : k = k' <;> simp [h, ih]

/-- A key is missed exactly when it is absent from the keys. -/
theorem lookup_eq_none_iff {κ ν : Type _} [DecidableEq κ] (m : List (κ × ν)) (k : κ) :
    m.lookup k = none ↔ k ∉ m.map Prod.fst := by
  rw [← lookup_isSome_iff]
  cases m.lookup k <;> simp

/-- The Python-dict `any` guard agrees with key membership. -/
theorem any_key_iff {κ ν : Type _} [DecidableEq κ] (m : List (κ × ν)) (k : κ) :
    (m.any (fun p => p.1 = k)) = true ↔ k ∈ m.map Prod.fst := by
  induction m with
  | nil => simp
  | cons p rest ih =>
      simp only [List.any_cons, List.map_cons, List.mem_cons, Bool.or_eq_true, ih]
      constructor
      · rintro (h | h)
        · exact Or.inl (of_decide_eq_true h).symm
        · exact Or.inr h
      · rintro (h | h)
        · exact Or.inl (decide_eq_true h.symm)
        · exact Or.inr h

/-- Inserting a fresh key appends it. -/
theorem dictInsert_fresh {κ ν : Type _} [DecidableEq κ] (m : List (κ × ν)) (k : κ)
    (v : ν) (h : k ∉ m.map Prod.fst) : dictInsert m k v = m ++ [(k, v)] := by
  unfold dictInsert
  rw [if_neg]
  intro hany
  exact h ((any_key_iff m k).mp hany)

/-- Lookup across an append. -/
theorem lookup_append_of_none {κ ν : Type _} [DecidableEq κ] (m₁ m₂ : List (κ × ν))
    (k : κ) (h : m₁.lookup k = none) : (m₁ ++ m₂).lookup k = m₂.lookup k := by
  induction m₁ with
  | nil => simp
  | cons p rest ih =>
      obtain ⟨k', v⟩ := p
      rw [lookup_cons_eq] at h
      rw [List.cons_append, lookup_cons_eq]
      by_cases he : k = k'
      · rw [if_pos he] at h
        cases h
      · rw [if_neg he] at h ⊢
        exact ih h

/-- Lookup across an append when the left part already answers. -/
theorem lookup_append_of_some {κ ν : Type _} [DecidableEq κ] (m₁ m₂ : List (κ × ν))
    {k : κ} {v : ν} (h : m₁.lookup k = some v) : (m₁ ++ m₂).lookup k = some v := by
  induction m₁ with
  | nil => cases h
  | cons p rest ih =>
      obtain ⟨k', v'⟩ := p
      rw [lookup_cons_eq] at h
      rw [List.cons_append, lookup_cons_eq]
      by_cases he : k = k'
      · rw [if_pos he] at h ⊢
        exact h
      · rw [if_neg he] at h ⊢
        exact ih h
/-- Updating an absent key changes nothing. -/
theorem map_update_eq_self {κ ν : Type _} [DecidableEq κ] (m : List (κ × ν))
    (k : κ) (v : ν) (h : k ∉ m.map Prod.fst) :
    m.map (fun p => if p.1 = k then (k, v) else p) = m := by
  induction m with
  | nil => rfl
  | cons p rest ih =>
      simp only [List.map_cons, List.mem_cons] at h
      have h1 : ¬p.1 = k := fun hp => h (Or.inl hp.symm)
      have h2 : k ∉ rest.map Prod.fst := fun hm => h (Or.inr hm)
      simp only [List.map_cons]
      rw [if_neg h1, ih h2]

/-- Lookup after an in-place update of a present key (distinct keys). -/
theorem lookup_map_update {κ ν : Type _} [DecidableEq κ] (m : List (κ × ν))
    (k : κ) (v : ν) (k' : κ) (hnodup : (m.map Prod.fst).Nodup)
    (hmem : k ∈ m.map Prod.fst) :
    (m.map (fun p => if p.1 = k then (k, v) else p)).lookup k' =
      if k' = k then some v else m.lookup k' := by
  induction m with
  | nil => cases hmem
  | cons p rest ih =>
      obtain ⟨k₀, v₀⟩ := p
      simp only [List.map_cons, List.nodup_cons] at hnodup
      simp only [List.map_cons, List.mem_cons] at hmem
      simp only [List.map_cons]
      by_cases h0 : k₀ = k
      · subst h0
        have hcond : ((k₀, v₀).1 = k₀) := rfl
        rw [if_pos hcond, map_update_eq_self rest k₀ v hnodup.1]
        by_cases h' : k' = k₀
        · rw [lookup_cons_eq, lookup_cons_eq, if_pos h', if_pos h']
        · rw [lookup_cons_eq, lookup_cons_eq, if_neg h', if_neg h', if_neg h']
      · rw [if_neg (show ¬((k₀, v₀).1 = k) from h0)]
        have hmem' : k ∈ rest.map Prod.fst := by
          rcases hmem with h | h
          · exact absurd h.symm h0
          · exact h
        by_cases h' : k' = k₀
        · have hk : ¬k' = k := fun hk => h0 ((h'.symm.trans hk) ▸ rfl)
          rw [lookup_cons_eq, lookup_cons_eq, if_pos h', if_pos h', if_neg hk]
        · rw [lookup_cons_eq, lookup_cons_eq, if_neg h', if_neg h',
            ih hnodup.2 hmem']

/-- Dict insertion with distinct keys: lookup after `d[k] = v`. -/
theorem dictInsert_lookup {κ ν : Type _} [DecidableEq κ] (m : List (κ × ν)) (k : κ)
    (v : ν) (k' : κ) (hnodup : (m.map Prod.fst).Nodup) :
    (dictInsert m k v).lookup k' = if k' = k then some v else m.lookup k' := by
  by_cases hmem : k ∈ m.map Prod.fst
  · unfold dictInsert
    rw [if_pos ((any_key_iff m k).mpr hmem)]
    exact lookup_map_update m k v k' hnodup hmem
  · rw [dictInsert_fresh m k v hmem]
    by_cases h' : k' = k
    · subst h'
      rw [if_pos rfl]
      rw [lookup_append_of_none _ _ _ ((lookup_eq_none_iff m k').mpr hmem)]
      rw [lookup_cons_eq, if_pos rfl]
    · rw [if_neg h']
      cases hrl : m.lookup k' with
      | none =>
          rw [lookup_append_of_none _ _ _ hrl, lookup_cons_eq, if_neg h']
          rfl
      | some w => exact lookup_append_of_some _ _ hrl

/-- Dict insertion preserves distinct keys. -/
theorem dictInsert_keys_nodup {κ ν : Type _} [DecidableEq κ] (m : List (κ × ν))
    (k : κ) (v : ν) (hnodup : (m.map Prod.fst).Nodup) :
    ((dictInsert m k v).map Prod.fst).Nodup := by
  by_cases h : k ∈ m.map Prod.fst
  · unfold dictInsert
    rw [if_pos ((any_key_iff m k).mpr h)]
    have heq : (m.map (fun p => if p.1 = k then (k, v) else p)).map Prod.fst =
        m.map Prod.fst := by
      rw [List.map_map]
      refine List.map_congr_left ?_
      intro p _
      by_cases hp : p.1 = k <;> simp [hp]
    rw [heq]
    exact hnodup
  · rw [dictInsert_fresh m k v h, List.map_append, List.nodup_append]
    refine ⟨hnodup, by simp, ?_⟩
    intro a ham hamem
    rw [List.map_singleton, List.mem_singleton] at hamem
    subst hamem
    exact h ham

/-- Dict insertion's keys are the old keys plus the inserted one. -/
theorem mem_keys_dictInsert {κ ν : Type _} [DecidableEq κ] (m : List (κ × ν))
    (k : κ) (v : ν) (k' : κ) :
    k' ∈ (dictInsert m k v).map Prod.fst ↔ k' ∈ m.map Prod.fst ∨ k' = k := by
  by_cases h : k ∈ m.map Prod.fst
  · unfold dictInsert
    rw [if_pos ((any_key_iff m k).mpr h)]
    have heq : (m.map (fun p => if p.1 = k then (k, v) else p)).map Prod.fst =
        m.map Prod.fst := by
      rw [List.map_map]
      refine List.map_congr_left ?_
      intro p _
      by_cases hp : p.1 = k <;> simp [hp]
    rw [heq]
    constructor
    · exact Or.inl
    · rintro (h' | h')
      · exact h'
      · exact h' ▸ h
  · rw [dictInsert_fresh m k v h, List.map_append]
    simp

/-- Unfolding equation for `busAddrList` on a cons. -/
theorem busAddrList_cons (i : ℕ) (bus : Bus) (rest : List (ℕ × Bus)) (a c : ℕ) :
    busAddrList ((i, bus) :: rest) a c =
      if bus.rate = Rate.audio then
        (BusKey.bus i, a) :: busAddrList rest (a + 1) c
      else (BusKey.bus i, c) :: busAddrList rest a (c + 1) := rfl

/-- Every listed bus receives an address. -/
theorem busAddrList_lookup_isSome :
    ∀ (l : List (ℕ × Bus)) (a c : ℕ) (i : ℕ) (bus : Bus),
      (i, bus) ∈ l → ((busAddrList l a c).lookup (BusKey.bus i)).isSome := by
  intro l
  induction l with
  | nil =>
      intro a c i bus h
      cases h
  | cons p rest ih =>
      intro a c i bus h
      obtain ⟨j, bj⟩ := p
      unfold busAddrList
      rcases List.mem_cons.mp h with he | hm
      · obtain ⟨h1, h2⟩ := Prod.mk.inj he
        subst h1
        by_cases hr : bj.rate = Rate.audio
        · rw [if_pos hr, lookup_cons_eq, if_pos rfl]
          rfl
        · rw [if_neg hr, lookup_cons_eq, if_pos rfl]
          rfl
      · by_cases hr : bj.rate = Rate.audio
        · rw [if_pos hr, lookup_cons_eq]
          by_cases he2 : BusKey.bus i = BusKey.bus j
          · rw [if_pos he2]
            rfl
          · rw [if_neg he2]
            exact ih _ _ _ _ hm
        · rw [if_neg hr, lookup_cons_eq]
          by_cases he2 : BusKey.bus i = BusKey.bus j
          · rw [if_pos he2]
            rfl
          · rw [if_neg he2]
            exact ih _ _ _ _ hm

/-- A control bus's address is at least the control counter. -/
theorem busAddrList_lookup_control_ge :
    ∀ (l : List (ℕ × Bus)) (a c : ℕ) (i : ℕ) (bus : Bus) (v : ℕ),
      (i, bus) ∈ l → (l.map Prod.fst).Nodup → bus.rate = Rate.control →
      (busAddrList l a c).lookup (BusKey.bus i) = some v → c ≤ v := by
  intro l
  induction l with
  | nil =>
      intro a c i bus v h
      cases h
  | cons p rest ih =>
      intro a c i bus v h hnodup hrate hv
      obtain ⟨j, bj⟩ := p
      simp only [List.map_cons, List.nodup_cons] at hnodup
      unfold busAddrList at hv
      rcases List.mem_cons.mp h with he | hm
      · obtain ⟨h1, h2⟩ := Prod.mk.inj he
        subst h1
        subst h2
        have hr : ¬bus.rate = Rate.audio := by
          rw [hrate]
          intro hc
          cases hc
        rw [if_neg hr, lookup_cons_eq, if_pos rfl] at hv
        cases hv
        exact le_refl _
      · have hne : BusKey.bus i ≠ BusKey.bus j := by
          intro he2
          have : i = j := BusKey.bus.inj he2
          subst this
          exact hnodup.1 (List.mem_map_of_mem Prod.fst hm)
        by_cases hr : bj.rate = Rate.audio
        · rw [if_pos hr, lookup_cons_eq, if_neg hne] at hv
          exact ih _ _ _ _ _ hm hnodup.2 hrate hv
        · rw [if_neg hr, lookup_cons_eq, if_neg hne] at hv
          exact le_trans (Nat.le_succ c) (ih _ _ _ _ _ hm hnodup.2 hrate hv)

/-- Distinct control buses receive distinct addresses. -/
theorem busAddrList_control_inj :
    ∀ (l : List (ℕ × Bus)) (a c : ℕ) (i j : ℕ) (bi bj : Bus) (vi vj : ℕ),
      (i, bi) ∈ l → (j, bj) ∈ l → (l.map Prod.fst).Nodup →
      bi.rate = Rate.control → bj.rate = Rate.control → i ≠ j →
      (busAddrList l a c).lookup (BusKey.bus i) = some vi →
      (busAddrList l a c).lookup (BusKey.bus j) = some vj → vi ≠ vj := by
  intro l
  induction l with
  | nil =>
      intro a c i j bi bj vi vj h
      cases h
  | cons p rest ih =>
      intro a c i j bi bj vi vj hi hj hnodup hci hcj hij hvi hvj
      obtain ⟨k, bk⟩ := p
      simp only [List.map_cons, List.nodup_cons] at hnodup
      unfold busAddrList at hvi hvj
      rcases List.mem_cons.mp hi with hei | hmi <;>
        rcases List.mem_cons.mp hj with hej | hmj
      · obtain ⟨h1, _⟩ := Prod.mk.inj hei
        obtain ⟨h2, _⟩ := Prod.mk.inj hej
        exact absurd (h1.trans h2.symm) hij
      · obtain ⟨h1, h2⟩ := Prod.mk.inj hei
        subst h1
        subst h2
        have hr : ¬bi.rate = Rate.audio := by
          rw [hci]
          intro hc
          cases hc
        rw [if_neg hr, lookup_cons_eq, if_pos rfl] at hvi
        cases hvi
        have hne : BusKey.bus j ≠ BusKey.bus i := by
          intro he2
          exact hij (BusKey.bus.inj he2).symm
        rw [if_neg hr, lookup_cons_eq, if_neg hne] at hvj
        have := busAddrList_lookup_control_ge rest a (c + 1) j bj vj hmj hnodup.2 hcj hvj
        omega
      · obtain ⟨h1, h2⟩ := Prod.mk.inj hej
        subst h1
        subst h2
        have hr : ¬bj.rate = Rate.audio := by
          rw [hcj]
          intro hc
          cases hc
        rw [if_neg hr, lookup_cons_eq, if_pos rfl] at hvj
        cases hvj
        have hne : BusKey.bus i ≠ BusKey.bus j := by
          intro he2
          exact hij (BusKey.bus.inj he2)
        rw [if_neg hr, lookup_cons_eq, if_neg hne] at hvi
        have := busAddrList_lookup_control_ge rest a (c + 1) i bi vi hmi hnodup.2 hci hvi
        omega
      · have hnei : BusKey.bus i ≠ BusKey.bus k := by
          intro he2
          have : i = k := BusKey.bus.inj he2
          subst this
          exact hnodup.1 (List.mem_map_of_mem Prod.fst hmi)
        have hnej : BusKey.bus j ≠ BusKey.bus k := by
          intro he2
          have : j = k := BusKey.bus.inj he2
          subst this
          exact hnodup.1 (List.mem_map_of_mem Prod.fst hmj)
        by_cases hr : bk.rate = Rate.audio
        · rw [if_pos hr, lookup_cons_eq, if_neg hnei] at hvi
          rw [if_pos hr, lookup_cons_eq, if_neg hnej] at hvj
          exact ih _ _ _ _ _ _ _ _ hmi hmj hnodup.2 hci hcj hij hvi hvj
        · rw [if_neg hr, lookup_cons_eq, if_neg hnei] at hvi
          rw [if_neg hr, lookup_cons_eq, if_neg hnej] at hvj
          exact ih _ _ _ _ _ _ _ _ hmi hmj hnodup.2 hci hcj hij hvi hvj

/-- Inserting non-bus keys never creates a bus key. -/
theorem lookup_bus_foldl_dictInsert {β : Type _} (f : β → BusKey) (g : β → ℕ)
    (hk : ∀ b i, f b ≠ BusKey.bus i) :
    ∀ (l : List β) (m : List (BusKey × ℕ)) (i : ℕ), m.lookup (BusKey.bus i) = none →
      ((l.foldl (fun m b => dictInsert m (f b) (g b)) m).lookup (BusKey.bus i)) = none := by
  intro l
  induction l with
  | nil =>
      intro m i h
      exact h
  | cons b rest ih =>
      intro m i h
      simp only [List.foldl_cons]
      refine ih _ _ ?_
      rw [lookup_eq_none_iff]
      intro hmem
      rcases (mem_keys_dictInsert m (f b) (g b) (BusKey.bus i)).mp hmem with hmem | hmem
      · exact absurd hmem ((lookup_eq_none_iff m (BusKey.bus i)).mp h)
      · exact hk b i hmem.symm

/-- A fold of dict insertions keeps the keys distinct, whatever the
inserted values. -/
theorem foldl_dictInsert_nodup {κ ν β : Type _} [DecidableEq κ] (key : β → κ)
    (val : List (κ × ν) → β → ν) (l : List β) (m : List (κ × ν))
    (h : (m.map Prod.fst).Nodup) :
    (((l.foldl (fun m b => dictInsert m (key b) (val m b)) m)).map Prod.fst).Nodup := by
  induction l generalizing m with
  | nil => exact h
  | cons b rest ih => exact ih _ (dictInsert_keys_nodup _ _ _ h)

/-- The input/output portion of the bus mapping holds no user-bus keys. -/
theorem lookup_bus_ioMapping (s : Session) (i : ℕ) :
    (((List.range s.inputCount).foldl
      (fun m j => dictInsert m (BusKey.input j) (s.outputCount + j))
      ((List.range s.outputCount).foldl
        (fun m j => dictInsert m (BusKey.output j) j) [])).lookup (BusKey.bus i)) =
      none := by
  refine lookup_bus_foldl_dictInsert (fun j => BusKey.input j) _ (fun b i h => by cases h)
    _ _ i ?_
  refine lookup_bus_foldl_dictInsert (fun j => BusKey.output j) _ (fun b i h => by cases h)
    _ _ i ?_
  rfl

/-- With every bus ungrouped, the user-bus loop appends exactly the
counter-assigned address list. -/
theorem busLoop_foldl_ungrouped (buses : List Bus) :
    ∀ (l : List (ℕ × Bus)) (a c : ℕ) (m : List (BusKey × ℕ)),
      (∀ p ∈ l, p.2.group = none) →
      (∀ p ∈ l, m.lookup (BusKey.bus p.1) = none) →
      (l.map Prod.fst).Nodup →
      (l.foldl (busLoopStep buses) (a, c, m)).2.2 = m ++ busAddrList l a c := by
  intro l
  induction l with
  | nil =>
      intro a c m _ _ _
      simp [busAddrList]
  | cons p rest ih =>
      intro a c m hng hnone hnodup
      obtain ⟨i, bus⟩ := p
      simp only [List.map_cons, List.nodup_cons] at hnodup
      have hgnone : bus.group = none := hng (i, bus) (List.mem_cons_self _ _)
      have hmnone : m.lookup (BusKey.bus i) = none :=
        hnone (i, bus) (List.mem_cons_self _ _)
      have hfresh : BusKey.bus i ∉ m.map Prod.fst :=
        (lookup_eq_none_iff m (BusKey.bus i)).mp hmnone
      simp only [List.foldl_cons]
      have hstep : busLoopStep buses (a, c, m) (i, bus) =
          (if bus.rate = Rate.audio then
            (a + 1, c, m ++ [(BusKey.bus i, a)])
          else (a, c + 1, m ++ [(BusKey.bus i, c)])) := by
        unfold busLoopStep
        simp only [hmnone, hgnone, Option.isSome_none, Bool.false_eq_true, if_false]
        by_cases hr : bus.rate = Rate.audio
        · rw [if_pos hr, if_pos hr, dictInsert_fresh m _ _ hfresh]
        · rw [if_neg hr, if_neg hr, dictInsert_fresh m _ _ hfresh]
      rw [hstep]
      have hrestnone : ∀ (mm : List (BusKey × ℕ)) (w : ℕ),
          mm = m ++ [(BusKey.bus i, w)] →
          ∀ q ∈ rest, mm.lookup (BusKey.bus q.1) = none := by
        intro mm w hmm q hq
        rw [hmm]
        have hqm : m.lookup (BusKey.bus q.1) = none :=
          hnone q (List.mem_cons_of_mem _ hq)
        rw [lookup_append_of_none _ _ _ hqm, lookup_cons_eq]
        rw [if_neg]
        · rfl
        · intro he
          have : q.1 = i := BusKey.bus.inj he
          exact hnodup.1 (this ▸ List.mem_map_of_mem Prod.fst hq)
      by_cases hr : bus.rate = Rate.audio
      · rw [if_pos hr]
        rw [ih (a + 1) c (m ++ [(BusKey.bus i, a)])
          (fun q hq => hng q (List.mem_cons_of_mem _ hq))
          (hrestnone _ a rfl) hnodup.2]
        rw [busAddrList_cons, if_pos hr, List.append_assoc]
        rfl
      · rw [if_neg hr]
        rw [ih a (c + 1) (m ++ [(BusKey.bus i, c)])
          (fun q hq => hng q (List.mem_cons_of_mem _ hq))
          (hrestnone _ c rfl) hnodup.2]
        rw [busAddrList_cons, if_neg hr, List.append_assoc]
        rfl

/-- With every bus ungrouped, a user bus's address is read from the
counter-assigned list. -/
theorem buildBusIdMapping_ungrouped (s : Session)
    (hng : ∀ b ∈ s.buses, b.group = none) (i : ℕ) :
    (buildBusIdMapping s).lookup (BusKey.bus i) =
      (busAddrList s.buses.enum (s.inputCount + s.outputCount) 0).lookup
        (BusKey.bus i) := by
  unfold buildBusIdMapping
  rw [busLoop_foldl_ungrouped s.buses s.buses.enum _ _ _
    (fun p hp => hng p.2 (by
      have h := List.mem_enum_iff_getElem?.mp hp
      obtain ⟨hlt, hget⟩ := List.getElem?_eq_some_iff.mp h
      exact hget ▸ List.getElem_mem hlt))
    (fun p _ => lookup_bus_ioMapping s p.1)
    (List.nodup_enum_map_fst _)]
  exact lookup_append_of_none _ _ _ (lookup_bus_ioMapping s i)

/-- With every bus ungrouped, distinct control buses are assigned
distinct addresses. -/
theorem busIdOf_control_inj (s : Session)
    (hng : ∀ b ∈ s.buses, b.group = none) :
    ∀ i j bi bj, s.buses[i]? = some bi → s.buses[j]? = some bj →
      bi.rate = Rate.control → bj.rate = Rate.control → i ≠ j →
      busIdOf s i ≠ busIdOf s j := by
  intro i j bi bj hi hj hci hcj hij
  have hmi : (i, bi) ∈ s.buses.enum := List.mem_enum_iff_getElem?.mpr hi
  have hmj : (j, bj) ∈ s.buses.enum := List.mem_enum_iff_getElem?.mpr hj
  obtain ⟨vi, hvi⟩ := Option.isSome_iff_exists.mp
    (busAddrList_lookup_isSome s.buses.enum (s.inputCount + s.outputCount) 0 i bi hmi)
  obtain ⟨vj, hvj⟩ := Option.isSome_iff_exists.mp
    (busAddrList_lookup_isSome s.buses.enum (s.inputCount + s.outputCount) 0 j bj hmj)
  unfold busIdOf
  rw [buildBusIdMapping_ungrouped s hng i, buildBusIdMapping_ungrouped s hng j,
    hvi, hvj]
  simp only [Option.getD_some]
  exact busAddrList_control_inj s.buses.enum _ _ i j bi bj vi vj hmi hmj
    (List.nodup_enum_map_fst _) hci hcj hij hvi hvj

/-- The member loop `for bus_id in range(block_id, ...)` keeps the keys
distinct. -/
theorem rangeFold_dictInsert_nodup (k : BusKey) (block : ℕ) :
    ∀ (size : ℕ) (m : List (BusKey × ℕ)), (m.map Prod.fst).Nodup →
      (((List.range size).foldl (fun m a => dictInsert m k (block + a)) m).map
        Prod.fst).Nodup := by
  intro size
  induction size with
  | zero =>
      intro m hm
      exact hm
  | succ n ih =>
      intro m hm
      rw [List.range_succ, List.foldl_append, List.foldl_cons, List.foldl_nil]
      exact dictInsert_keys_nodup _ _ _ (ih m hm)

/-- The member loop overwrites its key repeatedly: the surviving address
is the tail of the block. -/
theorem rangeFold_dictInsert_lookup_same (k : BusKey) (block : ℕ) (n : ℕ)
    (m : List (BusKey × ℕ)) (hm : (m.map Prod.fst).Nodup) :
    ((List.range (n + 1)).foldl (fun m a => dictInsert m k (block + a)) m).lookup k =
      some (block + n) := by
  rw [List.range_succ, List.foldl_append, List.foldl_cons, List.foldl_nil]
  rw [dictInsert_lookup _ _ _ _ (rangeFold_dictInsert_nodup k block n m hm), if_pos rfl]

/-- The member loop leaves every other key untouched. -/
theorem rangeFold_dictInsert_lookup_other (k k' : BusKey) (h : k' ≠ k) (block : ℕ) :
    ∀ (size : ℕ) (m : List (BusKey × ℕ)), (m.map Prod.fst).Nodup →
      ((List.range size).foldl (fun m a => dictInsert m k (block + a)) m).lookup k' =
        m.lookup k' := by
  intro size
  induction size with
  | zero =>
      intro m _
      rfl
  | succ n ih =>
      intro m hm
      rw [List.range_succ, List.foldl_append, List.foldl_cons, List.foldl_nil]
      rw [dictInsert_lookup _ _ _ _ (rangeFold_dictInsert_nodup k block n m hm),
        if_neg h]
      exact ih m hm

/-- A bus group containing a session bus is non-empty. -/
theorem groupSize_pos (buses : List Bus) (bus : Bus) (g : ℕ)
    (hmem : bus ∈ buses) (hg : bus.group = some g) : 0 < groupSize buses g := by
  unfold groupSize
  exact List.length_pos_of_mem (List.mem_filter.mpr ⟨hmem, by simp [hg]⟩)

/-- The user-bus loop step on a fresh ungrouped bus, explicitly. -/
theorem busLoopStep_eq_none (buses : List Bus) (a c : ℕ) (m : List (BusKey × ℕ))
    (i : ℕ) (bus : Bus) (hfresh : m.lookup (BusKey.bus i) = none)
    (hg : bus.group = none) :
    busLoopStep buses (a, c, m) (i, bus) =
      (if bus.rate = Rate.audio then (a + 1, c, dictInsert m (BusKey.bus i) a)
       else (a, c + 1, dictInsert m (BusKey.bus i) c)) := by
  unfold busLoopStep
  simp only [hfresh, hg, Option.isSome_none, Bool.false_eq_true, if_false]

/-- The user-bus loop step on a fresh grouped bus, explicitly: a fresh
block of the group's size is taken and the member key rewritten over the
whole block. -/
theorem busLoopStep_eq_some (buses : List Bus) (a c : ℕ) (m : List (BusKey × ℕ))
    (i : ℕ) (bus : Bus) (g : ℕ) (hfresh : m.lookup (BusKey.bus i) = none)
    (hg : bus.group = some g) :
    busLoopStep buses (a, c, m) (i, bus) =
      (if bus.rate = Rate.audio then
        (a + groupSize buses g, c,
          (List.range (groupSize buses g)).foldl
            (fun m x => dictInsert m (BusKey.bus i) (a + x))
            (dictInsert m (BusKey.group g) a))
       else
        (a, c + groupSize buses g,
          (List.range (groupSize buses g)).foldl
            (fun m x => dictInsert m (BusKey.bus i) (c + x))
            (dictInsert m (BusKey.group g) c))) := by
  unfold busLoopStep
  simp only [hfresh, hg, Option.isSome_none, Bool.false_eq_true, if_false]
  by_cases hr : bus.rate = Rate.audio <;> simp [hr]

/-- One user-bus loop step: keys stay distinct, the control counter never
shrinks, other bus keys keep their addresses, and a control bus is
assigned an address inside the counter interval the step consumes — also
in the grouped branch, where the member ends on the tail of its own
fresh block. -/
theorem busLoopStep_spec (buses : List Bus) (a c : ℕ) (m : List (BusKey × ℕ))
    (i : ℕ) (bus : Bus) (a₁ c₁ : ℕ) (m₁ : List (BusKey × ℕ))
    (hstep : busLoopStep buses (a, c, m) (i, bus) = (a₁, c₁, m₁))
    (hn : (m.map Prod.fst).Nodup)
    (hfresh : m.lookup (BusKey.bus i) = none)
    (hmem : bus ∈ buses) :
    (m₁.map Prod.fst).Nodup ∧ c ≤ c₁ ∧
    (∀ i', i' ≠ i → m₁.lookup (BusKey.bus i') = m.lookup (BusKey.bus i')) ∧
    (bus.rate = Rate.control →
      ∃ v, m₁.lookup (BusKey.bus i) = some v ∧ c ≤ v ∧ v < c₁) := by
  cases hg : bus.group with
  | none =>
      rw [busLoopStep_eq_none buses a c m i bus hfresh hg] at hstep
      by_cases hr : bus.rate = Rate.audio
      · rw [if_pos hr] at hstep
        injection hstep with h1 h23
        injection h23 with h2 h3
        subst h2
        subst h3
        refine ⟨dictInsert_keys_nodup _ _ _ hn, le_refl c, ?_, ?_⟩
        · intro i' hi'
          rw [dictInsert_lookup _ _ _ _ hn,
            if_neg (fun he => hi' (BusKey.bus.inj he))]
        · intro hc
          exact absurd (hr ▸ hc) (by decide)
      · rw [if_neg hr] at hstep
        injection hstep with h1 h23
        injection h23 with h2 h3
        subst h2
        subst h3
        refine ⟨dictInsert_keys_nodup _ _ _ hn, Nat.le_succ c, ?_, ?_⟩
        · intro i' hi'
          rw [dictInsert_lookup _ _ _ _ hn,
            if_neg (fun he => hi' (BusKey.bus.inj he))]
        · intro _
          refine ⟨c, ?_, le_refl c, Nat.lt_succ_self c⟩
          rw [dictInsert_lookup _ _ _ _ hn, if_pos rfl]
  | some g =>
      rw [busLoopStep_eq_some buses a c m i bus g hfresh hg] at hstep
      have hsize : 0 < groupSize buses g := groupSize_pos buses bus g hmem hg
      have hgn : ((dictInsert m (BusKey.group g) a).map Prod.fst).Nodup :=
        dictInsert_keys_nodup _ _ _ hn
      have hgn' : ((dictInsert m (BusKey.group g) c).map Prod.fst).Nodup :=
        dictInsert_keys_nodup _ _ _ hn
      by_cases hr : bus.rate = Rate.audio
      · rw [if_pos hr] at hstep
        injection hstep with h1 h23
        injection h23 with h2 h3
        subst h2
        subst h3
        refine ⟨rangeFold_dictInsert_nodup _ _ _ _ hgn, le_refl c, ?_, ?_⟩
        · intro i' hi'
          rw [rangeFold_dictInsert_lookup_other _ _
            (fun he => hi' (BusKey.bus.inj he)) _ _ _ hgn]
          rw [dictInsert_lookup _ _ _ _ hn, if_neg (fun he => BusKey.noConfusion he)]
        · intro hc
          exact absurd (hr ▸ hc) (by decide)
      · rw [if_neg hr] at hstep
        injection hstep with h1 h23
        injection h23 with h2 h3
        subst h2
        subst h3
        obtain ⟨n, hsz⟩ : ∃ n, groupSize buses g = n + 1 :=
          ⟨groupSize buses g - 1, by omega⟩
        refine ⟨rangeFold_dictInsert_nodup _ _ _ _ hgn', Nat.le_add_right c _, ?_, ?_⟩
        · intro i' hi'
          rw [rangeFold_dictInsert_lookup_other _ _
            (fun he => hi' (BusKey.bus.inj he)) _ _ _ hgn']
          rw [dictInsert_lookup _ _ _ _ hn, if_neg (fun he => BusKey.noConfusion he)]
        · intro _
          refine ⟨c + n, ?_, Nat.le_add_right c n, by omega⟩
          rw [hsz]
          exact rangeFold_dictInsert_lookup_same _ _ _ _ hgn'

/-- The user-bus loop over fresh, distinct indices: keys stay distinct,
the control counter never shrinks, untouched bus keys are stable, every
control bus is assigned an address at or above the counter it started
from, and distinct control buses receive distinct addresses — with no
assumption on bus grouping. -/
theorem busLoop_control_spec (buses : List Bus) :
    ∀ (l : List (ℕ × Bus)) (a c : ℕ) (m : List (BusKey × ℕ)),
      (m.map Prod.fst).Nodup →
      (∀ p ∈ l, m.lookup (BusKey.bus p.1) = none) →
      (∀ p ∈ l, p.2 ∈ buses) →
      ((l.map Prod.fst).Nodup) →
      (((l.foldl (busLoopStep buses) (a, c, m)).2.2).map Prod.fst).Nodup ∧
      c ≤ (l.foldl (busLoopStep buses) (a, c, m)).2.1 ∧
      (∀ i, (∀ p ∈ l, p.1 ≠ i) →
        ((l.foldl (busLoopStep buses) (a, c, m)).2.2).lookup (BusKey.bus i) =
          m.lookup (BusKey.bus i)) ∧
      (∀ p ∈ l, p.2.rate = Rate.control → ∃ v,
        ((l.foldl (busLoopStep buses) (a, c, m)).2.2).lookup (BusKey.bus p.1) =
          some v ∧ c ≤ v ∧ v < (l.foldl (busLoopStep buses) (a, c, m)).2.1) ∧
      (∀ p ∈ l, ∀ q ∈ l, p.2.rate = Rate.control → q.2.rate = Rate.control →
        p.1 ≠ q.1 →
        ((l.foldl (busLoopStep buses) (a, c, m)).2.2).lookup (BusKey.bus p.1) ≠
          ((l.foldl (busLoopStep buses) (a, c, m)).2.2).lookup (BusKey.bus q.1)) := by
  intro l
  induction l with
  | nil =>
      intro a c m hn _ _ _
      exact ⟨hn, le_refl c, fun i _ => rfl,
        fun p hp => absurd hp (List.not_mem_nil p),
        fun p hp => absurd hp (List.not_mem_nil p)⟩
  | cons p0 rest ih =>
      intro a c m hn hfresh hmem hdist
      obtain ⟨i, bus⟩ := p0
      simp only [List.map_cons, List.nodup_cons] at hdist
      have hfresh0 : m.lookup (BusKey.bus i) = none :=
        hfresh (i, bus) (List.mem_cons_self _ _)
      rcases hst : busLoopStep buses (a, c, m) (i, bus) with ⟨a₁, c₁, m₁⟩
      obtain ⟨hn₁, hcc₁, hother₁, hctrl₁⟩ := busLoopStep_spec buses a c m i bus
        a₁ c₁ m₁ hst hn hfresh0 (hmem (i, bus) (List.mem_cons_self _ _))
      rw [List.foldl_cons, hst]
      have hne_rest : ∀ q ∈ rest, q.1 ≠ i := by
        intro q hq he
        exact hdist.1 (he ▸ List.mem_map_of_mem Prod.fst hq)
      have hfresh₁ : ∀ q ∈ rest, m₁.lookup (BusKey.bus q.1) = none := by
        intro q hq
        rw [hother₁ q.1 (hne_rest q hq)]
        exact hfresh q (List.mem_cons_of_mem _ hq)
      obtain ⟨Hn, Hc, Hother, Hctrl, Hinj⟩ := ih a₁ c₁ m₁ hn₁ hfresh₁
        (fun q hq => hmem q (List.mem_cons_of_mem _ hq)) hdist.2
      have hstable : ((rest.foldl (busLoopStep buses) (a₁, c₁, m₁)).2.2).lookup
          (BusKey.bus i) = m₁.lookup (BusKey.bus i) :=
        Hother i hne_rest
      refine ⟨Hn, le_trans hcc₁ Hc, ?_, ?_, ?_⟩
      · intro i' hi'
        rw [Hother i' (fun q hq => hi' q (List.mem_cons_of_mem _ hq))]
        exact hother₁ i' (fun he => hi' (i, bus) (List.mem_cons_self _ _) he.symm)
      · intro p hp hpc
        rcases List.mem_cons.mp hp with rfl | hp'
        · obtain ⟨v, hv, hcv, hvc₁⟩ := hctrl₁ hpc
          exact ⟨v, hstable.trans hv, hcv, lt_of_lt_of_le hvc₁ Hc⟩
        · obtain ⟨v, hv, hc₁v, hvfin⟩ := Hctrl p hp' hpc
          exact ⟨v, hv, le_trans hcc₁ hc₁v, hvfin⟩
      · intro p hp q hq hpc hqc hpq
        rcases List.mem_cons.mp hp with rfl | hp' <;>
          rcases List.mem_cons.mp hq with rfl | hq'
        · exact absurd rfl hpq
        · obtain ⟨vp, hvp, _, hvpc₁⟩ := hctrl₁ hpc
          obtain ⟨vq, hvq, hc₁vq, _⟩ := Hctrl q hq' hqc
          rw [hstable.trans hvp, hvq]
          intro hcontra
          have hvv := Option.some.inj hcontra
          omega
        · obtain ⟨vq, hvq, _, hvqc₁⟩ := hctrl₁ hqc
          obtain ⟨vp, hvp, hc₁vp, _⟩ := Hctrl p hp' hpc
          rw [hstable.trans hvq, hvp]
          intro hcontra
          have hvv := Option.some.inj hcontra
          omega
        · exact Hinj p hp' q hq' hpc hqc hpq

/-- Distinct control buses are assigned distinct addresses, bus groups or
not: every allocation — single or block — consumes a fresh interval of
the control counter and the bus's surviving address lies inside its own
interval. -/
theorem busIdOf_control_inj_any (s : Session) :
    ∀ i j bi bj, s.buses[i]? = some bi → s.buses[j]? = some bj →
      bi.rate = Rate.control → bj.rate = Rate.control → i ≠ j →
      busIdOf s i ≠ busIdOf s j := by
  intro i j bi bj hi hj hci hcj hij
  have hmi : (i, bi) ∈ s.buses.enum := List.mem_enum_iff_getElem?.mpr hi
  have hmj : (j, bj) ∈ s.buses.enum := List.mem_enum_iff_getElem?.mpr hj
  have hm0n : (((List.range s.inputCount).foldl
      (fun m j => dictInsert m (BusKey.input j) (s.outputCount + j))
      ((List.range s.outputCount).foldl
        (fun m j => dictInsert m (BusKey.output j) j) [])).map Prod.fst).Nodup := by
    refine foldl_dictInsert_nodup (fun j => BusKey.input j)
      (fun _ j => s.outputCount + j) _ _ ?_
    exact foldl_dictInsert_nodup (fun j => BusKey.output j) (fun _ j => j) _ _
      (by simp)
  obtain ⟨-, -, -, Hctrl, Hinj⟩ := busLoop_control_spec s.buses s.buses.enum
    (s.inputCount + s.outputCount) 0 _ hm0n
    (fun p _ => lookup_bus_ioMapping s p.1)
    (fun p hp => by
      obtain ⟨hlt, hget⟩ := List.getElem?_eq_some_iff.mp
        (List.mem_enum_iff_getElem?.mp hp)
      exact hget ▸ List.getElem_mem hlt)
    (List.nodup_enum_map_fst _)
  obtain ⟨vi, hvi, -, -⟩ := Hctrl (i, bi) hmi hci
  obtain ⟨vj, hvj, -, -⟩ := Hctrl (j, bj) hmj hcj
  have hne := Hinj (i, bi) hmi (j, bj) hmj hci hcj hij
  rw [hvi, hvj] at hne
  unfold busIdOf buildBusIdMapping
  rw [hvi, hvj]
  simp only [Option.getD_some]
  exact fun he => hne (he ▸ rfl)

/-- One control bus's event loop: each event appends its `(bus id, value)`
pair to its offset's inner dictionary (the bus id being fresh there), and
creates exactly the event offsets as new outer keys. -/
theorem busEvFold_spec (busId : ℕ) :
    ∀ (evs : List (ℚ × ℚ)) (acc : List (ℚ × List (ℕ × ℚ))),
      (acc.map Prod.fst).Nodup →
      (evs.map Prod.fst).Nodup →
      (∀ ev ∈ evs, busId ∉ ((acc.lookup ev.1).getD []).map Prod.fst) →
      (((busEvFold busId acc evs).map Prod.fst).Nodup) ∧
      (∀ t, ((busEvFold busId acc evs).lookup t).getD [] =
        ((acc.lookup t).getD []) ++
          (evs.filter (fun e => e.1 = t)).map (fun e => (busId, e.2))) ∧
      (∀ t, t ∈ (busEvFold busId acc evs).map Prod.fst ↔
        t ∈ acc.map Prod.fst ∨ t ∈ evs.map Prod.fst) := by
  intro evs
  induction evs with
  | nil =>
      intro acc hnodup _ _
      refine ⟨hnodup, ?_, ?_⟩
      · intro t
        simp [busEvFold]
      · intro t
        simp [busEvFold]
  | cons ev rest ih =>
      intro acc hnodup hevnodup hfresh
      obtain ⟨o, v⟩ := ev
      simp only [List.map_cons, List.nodup_cons] at hevnodup
      have hfresh0 : busId ∉ ((acc.lookup o).getD []).map Prod.fst :=
        hfresh (o, v) (List.mem_cons_self _ _)
      have hinner : dictInsert ((acc.lookup o).getD []) busId v =
          ((acc.lookup o).getD []) ++ [(busId, v)] :=
        dictInsert_fresh _ _ _ hfresh0
      have hstep : busEvFold busId acc ((o, v) :: rest) =
          busEvFold busId
            (dictInsert acc o (((acc.lookup o).getD []) ++ [(busId, v)])) rest := by
        unfold busEvFold
        rw [List.foldl_cons, hinner]
      have hacc1nodup : ((dictInsert acc o
          (((acc.lookup o).getD []) ++ [(busId, v)])).map Prod.fst).Nodup :=
        dictInsert_keys_nodup _ _ _ hnodup
      have hacc1lookup : ∀ t, ((dictInsert acc o
          (((acc.lookup o).getD []) ++ [(busId, v)])).lookup t) =
          if t = o then some (((acc.lookup o).getD []) ++ [(busId, v)])
          else acc.lookup t := fun t => dictInsert_lookup acc o _ t hnodup
      have hfresh1 : ∀ ev ∈ rest, busId ∉
          (((dictInsert acc o (((acc.lookup o).getD []) ++ [(busId, v)])).lookup
            ev.1).getD []).map Prod.fst := by
        intro ev hev
        rw [hacc1lookup]
        rw [if_neg]
        · exact hfresh ev (List.mem_cons_of_mem _ hev)
        · intro he
          exact hevnodup.1 (he ▸ List.mem_map_of_mem Prod.fst hev)
      obtain ⟨hn, hv, hk⟩ := ih _ hacc1nodup hevnodup.2 hfresh1
      rw [hstep]
      refine ⟨hn, ?_, ?_⟩
      · intro t
        rw [hv t, hacc1lookup t]
        by_cases ht : t = o
        · subst ht
          rw [if_pos rfl, List.filter_cons_of_pos (by simp), Option.getD_some,
            List.map_cons, List.append_assoc]
          rfl
        · rw [if_neg ht,
            List.filter_cons_of_neg (by simpa using fun he => ht he.symm)]
      · intro t
        rw [hk t]
        constructor
        · rintro (h | h)
          · rcases (mem_keys_dictInsert _ _ _ _).mp h with h | h
            · exact Or.inl h
            · exact Or.inr (by simp [h])
          · exact Or.inr (by simp [h])
        · rintro (h | h)
          · exact Or.inl ((mem_keys_dictInsert _ _ _ _).mpr (Or.inl h))
          · simp only [List.map_cons, List.mem_cons] at h
            rcases h with h | h
            · exact Or.inl ((mem_keys_dictInsert _ _ _ _).mpr (Or.inr h))
            · exact Or.inr h

/-- The bus loop of `_collect_bus_requests`: with distinct control-bus
ids and one event per offset per bus, each offset's inner dictionary
lists the control-bus changes of that offset in bus order, and the outer
keys are exactly the control-event offsets. -/
theorem busFold_spec (s : Session) :
    ∀ (l : List (ℕ × Bus)) (acc : List (ℚ × List (ℕ × ℚ))),
      (acc.map Prod.fst).Nodup →
      (∀ p ∈ l, (p.2.events.map Prod.fst).Nodup) →
      (∀ p ∈ l, p.2.rate = Rate.control → ∀ t,
        busIdOf s p.1 ∉ (((acc.lookup t).getD []).map Prod.fst)) →
      (∀ p ∈ l, ∀ q ∈ l, p.1 ≠ q.1 → p.2.rate = Rate.control →
        q.2.rate = Rate.control → busIdOf s p.1 ≠ busIdOf s q.1) →
      (l.map Prod.fst).Nodup →
      (((l.foldl (fun acc p =>
          if p.2.rate = Rate.control then busEvFold (busIdOf s p.1) acc p.2.events
          else acc) acc).map Prod.fst).Nodup) ∧
      (∀ t, ((l.foldl (fun acc p =>
          if p.2.rate = Rate.control then busEvFold (busIdOf s p.1) acc p.2.events
          else acc) acc).lookup t).getD [] =
        ((acc.lookup t).getD []) ++
          l.flatMap (fun p =>
            if p.2.rate = Rate.control then
              (p.2.events.filter (fun e => e.1 = t)).map
                (fun e => (busIdOf s p.1, e.2))
            else [])) ∧
      (∀ t, t ∈ (l.foldl (fun acc p =>
          if p.2.rate = Rate.control then busEvFold (busIdOf s p.1) acc p.2.events
          else acc) acc).map Prod.fst ↔
        t ∈ acc.map Prod.fst ∨
          ∃ p ∈ l, p.2.rate = Rate.control ∧ t ∈ p.2.events.map Prod.fst) := by
  intro l
  induction l with
  | nil =>
      intro acc hnodup _ _ _ _
      refine ⟨hnodup, ?_, ?_⟩
      · intro t
        simp
      · intro t
        simp
  | cons p rest ih =>
      intro acc hnodup hev hfresh hinj hlnodup
      simp only [List.map_cons, List.nodup_cons] at hlnodup
      simp only [List.foldl_cons]
      by_cases hr : p.2.rate = Rate.control
      · rw [if_pos hr]
        obtain ⟨hn1, hv1, hk1⟩ := busEvFold_spec (busIdOf s p.1) p.2.events acc
          hnodup (hev p (List.mem_cons_self _ _))
          (fun ev _ => hfresh p (List.mem_cons_self _ _) hr ev.1)
        have hfresh' : ∀ q ∈ rest, q.2.rate = Rate.control → ∀ t,
            busIdOf s q.1 ∉
              (((busEvFold (busIdOf s p.1) acc p.2.events).lookup t).getD
                []).map Prod.fst := by
          intro q hq hqc t
          rw [hv1 t, List.map_append]
          intro hmem
          rcases List.mem_append.mp hmem with hmem | hmem
          · exact hfresh q (List.mem_cons_of_mem _ hq) hqc t hmem
          · have hne : q.1 ≠ p.1 := by
              intro he
              exact hlnodup.1 (he ▸ List.mem_map_of_mem Prod.fst hq)
            refine hinj q (List.mem_cons_of_mem _ hq) p (List.mem_cons_self _ _)
              hne hqc hr ?_
            rw [List.map_map] at hmem
            obtain ⟨e, _, he⟩ := List.mem_map.mp hmem
            exact he.symm
        obtain ⟨hn2, hv2, hk2⟩ := ih _ hn1 (fun q hq => hev q (List.mem_cons_of_mem _ hq))
          hfresh'
          (fun q hq q' hq' => hinj q (List.mem_cons_of_mem _ hq) q'
            (List.mem_cons_of_mem _ hq'))
          hlnodup.2
        refine ⟨hn2, ?_, ?_⟩
        · intro t
          rw [hv2 t, hv1 t, List.flatMap_cons, if_pos hr, List.append_assoc]
        · intro t
          rw [hk2 t, hk1 t]
          constructor
          · rintro ((h | h) | h)
            · exact Or.inl h
            · exact Or.inr ⟨p, List.mem_cons_self _ _, hr, h⟩
            · obtain ⟨q, hq, hqc, hqt⟩ := h
              exact Or.inr ⟨q, List.mem_cons_of_mem _ hq, hqc, hqt⟩
          · rintro (h | ⟨q, hq, hqc, hqt⟩)
            · exact Or.inl (Or.inl h)
            · rcases List.mem_cons.mp hq with rfl | hq
              · exact Or.inl (Or.inr hqt)
              · exact Or.inr ⟨q, hq, hqc, hqt⟩
      · rw [if_neg hr]
        obtain ⟨hn2, hv2, hk2⟩ := ih acc hnodup
          (fun q hq => hev q (List.mem_cons_of_mem _ hq))
          (fun q hq => hfresh q (List.mem_cons_of_mem _ hq))
          (fun q hq q' hq' => hinj q (List.mem_cons_of_mem _ hq) q'
            (List.mem_cons_of_mem _ hq'))
          hlnodup.2
        refine ⟨hn2, ?_, ?_⟩
        · intro t
          rw [hv2 t, List.flatMap_cons, if_neg hr, List.nil_append]
        · intro t
          rw [hk2 t]
          constructor
          · rintro (h | h)
            · exact Or.inl h
            · obtain ⟨q, hq, hqc, hqt⟩ := h
              exact Or.inr ⟨q, List.mem_cons_of_mem _ hq, hqc, hqt⟩
          · rintro (h | ⟨q, hq, hqc, hqt⟩)
            · exact Or.inl h
            · rcases List.mem_cons.mp hq with rfl | hq
              · exact absurd hqc hr
              · exact Or.inr ⟨q, hq, hqc, hqt⟩

/-- The `events_by_offset` dictionary: distinct outer offsets mapping to
exactly the control-bus changes of each offset, with keys exactly the
control-event offsets. -/
theorem busEventsByOffset_spec (s : Session)
    (hev : ∀ b ∈ s.buses, (b.events.map Prod.fst).Nodup) :
    (((busEventsByOffset s).map Prod.fst).Nodup) ∧
    (∀ t, ((busEventsByOffset s).lookup t).getD [] = ctrlEventPairs s t) ∧
    (∀ t, t ∈ (busEventsByOffset s).map Prod.fst ↔
      ∃ p ∈ s.buses.enum, p.2.rate = Rate.control ∧
        t ∈ p.2.events.map Prod.fst) := by
  have hmem : ∀ p ∈ s.buses.enum, p.2 ∈ s.buses := by
    intro p hp
    obtain ⟨hlt, hget⟩ := List.getElem?_eq_some_iff.mp
      (List.mem_enum_iff_getElem?.mp hp)
    exact hget ▸ List.getElem_mem hlt
  have hinj : ∀ p ∈ s.buses.enum, ∀ q ∈ s.buses.enum, p.1 ≠ q.1 →
      p.2.rate = Rate.control → q.2.rate = Rate.control →
      busIdOf s p.1 ≠ busIdOf s q.1 := by
    intro p hp q hq hne hpc hqc
    exact busIdOf_control_inj_any s p.1 q.1 p.2 q.2
      (List.mem_enum_iff_getElem?.mp hp) (List.mem_enum_iff_getElem?.mp hq)
      hpc hqc hne
  obtain ⟨h1, h2, h3⟩ := busFold_spec s s.buses.enum [] (by simp)
    (fun p hp => hev p.2 (hmem p hp))
    (fun p _ _ t => by simp [List.lookup])
    hinj (List.nodup_enum_map_fst _)
  unfold busEventsByOffset
  refine ⟨h1, ?_, ?_⟩
  · intro t
    rw [h2 t]
    unfold ctrlEventPairs
    simp [List.lookup]
  · intro t
    rw [h3 t]
    simp [List.lookup]

/-- With distinct keys, filtering an association list on a key yields at
most its one entry. -/
theorem filter_key_of_nodup {κ ν : Type _} [DecidableEq κ] (m : List (κ × ν)) (k : κ)
    (h : (m.map Prod.fst).Nodup) :
    m.filter (fun p => p.1 = k) = ((m.lookup k).map (fun v => (k, v))).toList := by
  induction m with
  | nil => rfl
  | cons p rest ih =>
      obtain ⟨k₀, v₀⟩ := p
      simp only [List.map_cons, List.nodup_cons] at h
      rw [lookup_cons_eq]
      by_cases h0 : k₀ = k
      · subst h0
        rw [List.filter_cons_of_pos (by simp), if_pos rfl]
        have hrest : rest.filter (fun p => p.1 = k₀) = [] := by
          rw [List.filter_eq_nil_iff]
          intro q hq hqk
          exact h.1 ((of_decide_eq_true hqk) ▸ List.mem_map_of_mem Prod.fst hq)
        rw [hrest]
        rfl
      · rw [List.filter_cons_of_neg (by simpa using fun he => h0 he), if_neg
          (fun he => h0 he.symm)]
        exact ih h.2

/-- An offset has control-bus change pairs exactly when some control bus
records an event there. -/
theorem ctrlEventPairs_eq_nil_iff (s : Session) (t : ℚ) :
    ctrlEventPairs s t = [] ↔
      ¬∃ p ∈ s.buses.enum, p.2.rate = Rate.control ∧
        t ∈ p.2.events.map Prod.fst := by
  unfold ctrlEventPairs
  rw [List.flatMap_eq_nil_iff]
  constructor
  · intro h ⟨p, hp, hpc, hpt⟩
    have := h p hp
    rw [if_pos hpc] at this
    rw [List.map_eq_nil_iff, List.filter_eq_nil_iff] at this
    obtain ⟨e, he, het⟩ := List.mem_map.mp hpt
    exact this e he (by simpa using het)
  · intro h p hp
    by_cases hpc : p.2.rate = Rate.control
    · rw [if_pos hpc]
      rw [List.map_eq_nil_iff, List.filter_eq_nil_iff]
      intro e he het
      exact h ⟨p, hp, hpc, List.mem_map.mpr ⟨e, he, of_decide_eq_true het⟩⟩
    · rw [if_neg hpc]

/-- A bus with one event per offset contributes at most one pair. -/
theorem filter_fst_length_le_one {evs : List (ℚ × ℚ)}
    (h : (evs.map Prod.fst).Nodup) (t : ℚ) :
    (evs.filter (fun e => e.1 = t)).length ≤ 1 := by
  induction evs with
  | nil => simp
  | cons e rest ih =>
      simp only [List.map_cons, List.nodup_cons] at h
      by_cases het : e.1 = t
      · rw [List.filter_cons_of_pos (by simpa using het)]
        have : rest.filter (fun e => e.1 = t) = [] := by
          rw [List.filter_eq_nil_iff]
          intro q hq hqt
          exact h.1 ((het.trans (of_decide_eq_true hqt).symm) ▸
            List.mem_map_of_mem Prod.fst hq)
        rw [this]
        simp
      · rw [List.filter_cons_of_neg (by simpa using het)]
        exact ih h.2

/-- Synth collection contributes only synth-new, parameter-set and
node-free requests. -/
theorem synthRequestsAt_kinds (synths : List Synth) (t : ℚ) :
    ∀ r ∈ synthRequestsAt synths t,
      r.kind = ReqKind.synthNew ∨ r.kind = ReqKind.paramSet ∨
        r.kind = ReqKind.nodeFree := by
  intro r hr
  unfold synthRequestsAt synthContribs at hr
  obtain ⟨q, hq, hrq⟩ := List.mem_flatMap.mp hr
  have hq' := (List.mem_filter.mp hq).1
  obtain ⟨p, _, hqp⟩ := List.mem_flatMap.mp hq'
  unfold Synth.collectRequests at hqp
  rcases List.mem_append.mp hqp with h | h
  · rcases List.mem_cons.mp h with h | h
    · rw [h] at hrq
      simp only [List.mem_singleton] at hrq
      rw [hrq]
      exact Or.inl rfl
    · obtain ⟨ev, _, hev⟩ := List.mem_map.mp h
      rw [← hev] at hrq
      simp only [List.mem_singleton] at hrq
      rw [hrq]
      exact Or.inr (Or.inl rfl)
  · rcases hstop : p.2.stopOffset with _ | stop
    · rw [hstop] at h
      cases h
    · rw [hstop] at h
      simp only [List.mem_singleton] at h
      rw [h] at hrq
      simp only [List.mem_singleton] at hrq
      rw [hrq]
      exact Or.inr (Or.inr rfl)

/-- With one event per offset per bus, the bus collector contributes, per
offset, exactly one coalesced request when any control-bus change exists
there. -/
theorem busRequestsAt_spec (s : Session)
    (hev : ∀ b ∈ s.buses, (b.events.map Prod.fst).Nodup) (t : ℚ) :
    busRequestsAt s t =
      if ctrlEventPairs s t = [] then []
      else [Request.controlBusSet ((ctrlEventPairs s t).insertionSort pairIndexR)] := by
  obtain ⟨h1, h2, h3⟩ := busEventsByOffset_spec s hev
  unfold busRequestsAt
  rw [filter_key_of_nodup _ t h1]
  by_cases hk : t ∈ (busEventsByOffset s).map Prod.fst
  · obtain ⟨inner, hinner⟩ := Option.isSome_iff_exists.mp
      ((lookup_isSome_iff _ _).mpr hk)
    have hval : inner = ctrlEventPairs s t := by
      rw [← h2 t, hinner]
      rfl
    have hnonnil : ¬ctrlEventPairs s t = [] := by
      rw [ctrlEventPairs_eq_nil_iff]
      intro hno
      exact hno ((h3 t).mp hk)
    rw [hinner, if_neg hnonnil]
    simp [hval]
  · have hnone : (busEventsByOffset s).lookup t = none :=
      (lookup_eq_none_iff _ _).mpr hk
    have hnil : ctrlEventPairs s t = [] := by
      rw [ctrlEventPairs_eq_nil_iff]
      intro hex
      exact hk ((h3 t).mpr hex)
    rw [hnone, if_pos hnil]
    rfl

/-- The bus-set requests of the whole collected offset are those of the
bus collector. -/
theorem find_requestMapping_busSet (s : Session) (t : ℚ) :
    (s.requestMapping.find t).filter (fun r => r.kind = ReqKind.busSet) =
      busRequestsAt s t := by
  rw [find_requestMapping, List.filter_append, List.filter_append]
  have h1 : (busRequestsAt s t).filter (fun r => r.kind = ReqKind.busSet) =
      busRequestsAt s t := by
    rw [List.filter_eq_self]
    intro r hr
    rw [busRequestsAt_kinds s t r hr]
    simp
  have h2 : (synthdefRequestsAt s.synths t).filter
      (fun r => r.kind = ReqKind.busSet) = [] := by
    rw [List.filter_eq_nil_iff]
    intro r hr
    rw [synthdefRequestsAt_kinds s.synths t r hr]
    simp
  have h3 : (synthRequestsAt s.synths t).filter
      (fun r => r.kind = ReqKind.busSet) = [] := by
    rw [List.filter_eq_nil_iff]
    intro r hr
    rcases synthRequestsAt_kinds s.synths t r hr with h | h | h <;>
      rw [h] <;> simp
  rw [h1, h2, h3]
  simp

/-- The bus-set messages of a processed bundle, exactly. -/
theorem processRequests_busSet_msgs (off : ℚ) (reqs : List Request) :
    (processRequests off reqs).contents.filter isBusSetMsg =
      ((reqs.filter (fun r => r.kind = ReqKind.busSet)).map OscMessage.cmd) := by
  rw [processRequests_contents, List.filter_append]
  have h2 : ((if (reqs.filter (fun r => r.kind = ReqKind.nodeFree)).isEmpty then []
      else [OscMessage.cmd (Request.nodeFree
        ((reqs.filter (fun r => r.kind = ReqKind.nodeFree)).flatMap
          Request.freeIds))]).filter isBusSetMsg) = [] := by
    by_cases h : (reqs.filter (fun r => r.kind = ReqKind.nodeFree)).isEmpty <;>
      simp [h, isBusSetMsg]
  rw [h2, List.append_nil, List.filter_flatMap]
  have hperk : ∀ k ∈ prioritizedRequestTypes,
      ((reqs.filter (fun r => r.kind = k)).map OscMessage.cmd).filter isBusSetMsg =
        (if k = ReqKind.busSet then
          (reqs.filter (fun r => r.kind = ReqKind.busSet)).map OscMessage.cmd
        else []) := by
    intro k _
    by_cases hk : k = ReqKind.busSet
    · subst hk
      rw [if_pos rfl, List.filter_eq_self]
      intro m hm
      obtain ⟨r, hr, hrm⟩ := List.mem_map.mp hm
      have hkind := of_decide_eq_true (List.mem_filter.mp hr).2
      rw [← hrm]
      cases r <;> simp_all [Request.kind, isBusSetMsg]
    · rw [if_neg hk, List.filter_eq_nil_iff]
      intro m hm
      obtain ⟨r, hr, hrm⟩ := List.mem_map.mp hm
      have hkind := of_decide_eq_true (List.mem_filter.mp hr).2
      rw [← hrm]
      cases r <;> simp_all [Request.kind, isBusSetMsg]
  rw [List.flatMap_congr hperk]
  simp [prioritizedRequestTypes]

/-- Any bus-set message of a processed bundle renders one of the offset's
bus-set requests. -/
theorem mem_contents_busSet {off : ℚ} {reqs : List Request} {ps : List (ℕ × ℚ)}
    (h : OscMessage.cmd (Request.controlBusSet ps) ∈ (processRequests off reqs).contents) :
    Request.controlBusSet ps ∈ reqs.filter (fun r => r.kind = ReqKind.busSet) := by
  have hmem : OscMessage.cmd (Request.controlBusSet ps) ∈
      (processRequests off reqs).contents.filter isBusSetMsg :=
    List.mem_filter.mpr ⟨h, by simp [isBusSetMsg]⟩
  rw [processRequests_busSet_msgs] at hmem
  obtain ⟨r, hr, hrm⟩ := List.mem_map.mp hmem
  cases OscMessage.cmd.inj hrm
  exact hr

/-- Every pair of an offset's change list carries a control bus's id. -/
theorem mem_ctrlPairs_fst_aux (s : Session) (t : ℚ) (l : List (ℕ × Bus)) (x : ℕ)
    (h : x ∈ ((l.flatMap (fun p =>
      if p.2.rate = Rate.control then
        (p.2.events.filter (fun e => e.1 = t)).map (fun e => (busIdOf s p.1, e.2))
      else [])).map Prod.fst)) :
    ∃ q ∈ l, q.2.rate = Rate.control ∧ x = busIdOf s q.1 := by
  obtain ⟨pr, hpr, hx⟩ := List.mem_map.mp h
  obtain ⟨q, hq, hmem⟩ := List.mem_flatMap.mp hpr
  by_cases hc : q.2.rate = Rate.control
  · rw [if_pos hc] at hmem
    obtain ⟨e, _, hem⟩ := List.mem_map.mp hmem
    refine ⟨q, hq, hc, ?_⟩
    rw [← hx, ← hem]
  · rw [if_neg hc] at hmem
    cases hmem

/-- The change pairs of an offset have distinct bus indices. -/
theorem ctrlPairs_fst_nodup_aux (s : Session) (t : ℚ) :
    ∀ l : List (ℕ × Bus),
      (∀ p ∈ l, (p.2.events.map Prod.fst).Nodup) →
      (∀ p ∈ l, ∀ q ∈ l, p.1 ≠ q.1 → p.2.rate = Rate.control →
        q.2.rate = Rate.control → busIdOf s p.1 ≠ busIdOf s q.1) →
      (l.map Prod.fst).Nodup →
      ((l.flatMap (fun p =>
        if p.2.rate = Rate.control then
          (p.2.events.filter (fun e => e.1 = t)).map (fun e => (busIdOf s p.1, e.2))
        else [])).map Prod.fst).Nodup := by
  intro l
  induction l with
  | nil =>
      intro _ _ _
      simp
  | cons p rest ih =>
      intro hev hinj hlnodup
      simp only [List.map_cons, List.nodup_cons] at hlnodup
      rw [List.flatMap_cons, List.map_append, List.nodup_append]
      refine ⟨?_, ?_, ?_⟩
      · by_cases hc : p.2.rate = Rate.control
        · rw [if_pos hc]
          have hlen := filter_fst_length_le_one
            (hev p (List.mem_cons_self _ _)) t
          rcases hflt : p.2.events.filter (fun e => e.1 = t) with _ | ⟨e, rest'⟩
          · rw [hflt]
            simp
          · rw [hflt] at hlen
            simp only [List.length_cons] at hlen
            have hnil : rest' = [] := List.length_eq_zero.mp (by omega)
            rw [hflt, hnil]
            simp
        · rw [if_neg hc]
          simp
      · exact ih (fun q hq => hev q (List.mem_cons_of_mem _ hq))
          (fun q hq q' hq' => hinj q (List.mem_cons_of_mem _ hq) q'
            (List.mem_cons_of_mem _ hq'))
          hlnodup.2
      · intro x hx hx'
        obtain ⟨q, hq, hqc, hqid⟩ := mem_ctrlPairs_fst_aux s t rest x hx'
        by_cases hc : p.2.rate = Rate.control
        · rw [if_pos hc] at hx
          obtain ⟨pr, hpr, hxp⟩ := List.mem_map.mp hx
          obtain ⟨e, _, hem⟩ := List.mem_map.mp hpr
          have hxid : x = busIdOf s p.1 := by
            rw [← hxp, ← hem]
          have hne : p.1 ≠ q.1 := by
            intro he
            exact hlnodup.1 (he ▸ List.mem_map_of_mem Prod.fst hq)
          exact hinj p (List.mem_cons_self _ _) q (List.mem_cons_of_mem _ hq)
            hne hc hqc (hxid ▸ hqid ▸ rfl)
        · rw [if_neg hc] at hx
          cases hx

/-- The change pairs of an offset have distinct bus indices (top form). -/
theorem ctrlEventPairs_fst_nodup (s : Session)
    (hev : ∀ b ∈ s.buses, (b.events.map Prod.fst).Nodup) (t : ℚ) :
    ((ctrlEventPairs s t).map Prod.fst).Nodup := by
  have hmem : ∀ p ∈ s.buses.enum, p.2 ∈ s.buses := by
    intro p hp
    obtain ⟨hlt, hget⟩ := List.getElem?_eq_some_iff.mp
      (List.mem_enum_iff_getElem?.mp hp)
    exact hget ▸ List.getElem_mem hlt
  exact ctrlPairs_fst_nodup_aux s t s.buses.enum
    (fun p hp => hev p.2 (hmem p hp))
    (fun p hp q hq hne hpc hqc => busIdOf_control_inj_any s p.1 q.1 p.2 q.2
      (List.mem_enum_iff_getElem?.mp hp) (List.mem_enum_iff_getElem?.mp hq)
      hpc hqc hne)
    (List.nodup_enum_map_fst _)

/-- Pair membership in an offset's change list. -/
theorem mem_ctrlEventPairs (s : Session) (t : ℚ) (id : ℕ) (v : ℚ) :
    (id, v) ∈ ctrlEventPairs s t ↔
      ∃ i bus, s.buses[i]? = some bus ∧ bus.rate = Rate.control ∧
        busIdOf s i = id ∧ (t, v) ∈ bus.events := by
  unfold ctrlEventPairs
  constructor
  · intro h
    obtain ⟨p, hp, hmem⟩ := List.mem_flatMap.mp h
    by_cases hc : p.2.rate = Rate.control
    · rw [if_pos hc] at hmem
      obtain ⟨e, he, hem⟩ := List.mem_map.mp hmem
      have hefilter := List.mem_filter.mp he
      obtain ⟨h1, h2⟩ := Prod.mk.inj hem
      refine ⟨p.1, p.2, List.mem_enum_iff_getElem?.mp hp, hc, h1, ?_⟩
      have het : e.1 = t := of_decide_eq_true hefilter.2
      have he' : e = (t, v) := by
        obtain ⟨e1, e2⟩ := e
        simp only at het h2
        rw [het, h2]
      rw [← he']
      exact hefilter.1
    · rw [if_neg hc] at hmem
      cases hmem
  · rintro ⟨i, bus, hi, hc, hid, hevmem⟩
    refine List.mem_flatMap.mpr ⟨(i, bus), List.mem_enum_iff_getElem?.mpr hi, ?_⟩
    rw [if_pos hc]
    refine List.mem_map.mpr ⟨(t, v), List.mem_filter.mpr ⟨hevmem, by simp⟩, ?_⟩
    rw [hid]

/-- C7: at every offset with a scheduled control-bus change, a bundle
exists; every bundle carries exactly one coalesced control-bus-set
command when its offset has control-bus changes and none otherwise; the
command's pairs are sorted by strictly ascending bus index and are
exactly the offset's control-bus changes. Audio-rate buses never
contribute. Holds for grouped and ungrouped buses alike — every
allocation, single or block, takes a fresh slice of the control counter.
Hypothesis: one event per offset per bus. -/
theorem C7_control_bus_coalescing (s : Session) (bundles : List OscBundle)
    (h : s.toOscBundles none = Except.ok bundles)
    (hev : ∀ b ∈ s.buses, (b.events.map Prod.fst).Nodup) :
    (∀ t, (∃ (i : ℕ) (bus : Bus) (v : ℚ), s.buses[i]? = some bus ∧
        bus.rate = Rate.control ∧ (t, v) ∈ bus.events) →
      ∃ b ∈ bundles, b.timestamp = t) ∧
    (∀ b ∈ bundles,
      ((b.contents.filter isBusSetMsg).length =
        if ctrlEventPairs s b.timestamp = [] then 0 else 1) ∧
      (∀ ps, OscMessage.cmd (Request.controlBusSet ps) ∈ b.contents →
        (ps.map Prod.fst).Pairwise (· < ·) ∧
        (∀ id v, ((id, v) ∈ ps ↔ ∃ i bus, s.buses[i]? = some bus ∧
          bus.rate = Rate.control ∧ busIdOf s i = id ∧
          (b.timestamp, v) ∈ bus.events)))) := by
  obtain ⟨-, hb⟩ := toOscBundles_ok h
  have hmask : processTimespanMask s none = s := rfl
  rw [hmask] at hb
  have hterm : ∀ f : ℚ, processTerminalEvent f none = [] := fun _ => rfl
  rw [hterm, List.append_nil] at hb
  constructor
  · intro t ⟨i, bus, v, hi, hc, hevmem⟩
    have hkey : t ∈ (busEventsByOffset s).map Prod.fst := by
      refine ((busEventsByOffset_spec s hev).2.2 t).mpr ?_
      exact ⟨(i, bus), List.mem_enum_iff_getElem?.mpr hi, hc,
        List.mem_map_of_mem Prod.fst hevmem⟩
    have hkeys : t ∈ s.requestMapping.map Prod.fst :=
      (mem_keys_requestMapping s t).mpr (Or.inl hkey)
    refine ⟨processRequests t (s.requestMapping.find t), ?_, rfl⟩
    rw [hb]
    exact mem_map_processRequests.mpr ⟨t, hkeys, rfl⟩
  · intro b hmem
    rw [hb] at hmem
    obtain ⟨o, hok, hbo⟩ := mem_map_processRequests.mp hmem
    have hts : b.timestamp = o := by
      rw [hbo]
      rfl
    have hbus : (s.requestMapping.find o).filter
        (fun r => r.kind = ReqKind.busSet) =
        (if ctrlEventPairs s o = [] then []
         else [Request.controlBusSet
           ((ctrlEventPairs s o).insertionSort pairIndexR)]) := by
      rw [find_requestMapping_busSet, busRequestsAt_spec s hev]
    constructor
    · rw [hts, hbo]
      rw [processRequests_busSet_msgs, hbus]
      by_cases hnil : ctrlEventPairs s o = [] <;> simp [hnil]
    · intro ps hps
      rw [hbo] at hps
      have hmemf := mem_contents_busSet hps
      rw [hbus] at hmemf
      by_cases hnil : ctrlEventPairs s o = []
      · rw [if_pos hnil] at hmemf
        cases hmemf
      · rw [if_neg hnil] at hmemf
        rw [List.mem_singleton] at hmemf
        have hpse : ps = (ctrlEventPairs s o).insertionSort pairIndexR :=
          Request.controlBusSet.inj hmemf
        have hperm : List.Perm ((ctrlEventPairs s o).insertionSort pairIndexR)
            (ctrlEventPairs s o) := List.perm_insertionSort _ _
        constructor
        · rw [hpse]
          have hsorted : ((ctrlEventPairs s o).insertionSort
              pairIndexR).Pairwise pairIndexR :=
            List.sorted_insertionSort pairIndexR _
          have hnodup : (((ctrlEventPairs s o).insertionSort pairIndexR).map
              Prod.fst).Nodup :=
            ((hperm.map Prod.fst).nodup_iff).mpr
              (ctrlEventPairs_fst_nodup s hev o)
          have hne : ((ctrlEventPairs s o).insertionSort pairIndexR).Pairwise
              (fun a b => a.1 ≠ b.1) := List.pairwise_map.mp hnodup
          refine List.pairwise_map.mpr ?_
          exact (hsorted.and hne).imp (fun hp => lt_of_le_of_ne hp.1 hp.2)
        · intro id v
          rw [hpse, hts]
          constructor
          · intro hmem'
            exact (mem_ctrlEventPairs s o id v).mp (hperm.mem_iff.mp hmem')
          · intro hex
            exact hperm.mem_iff.mpr ((mem_ctrlEventPairs s o id v).mpr hex)

/-- C7 (witness): on a concrete session whose two control-rate buses form
one bus group, every offset with a control-bus change has a bundle, each
bundle has exactly one bus-set command when its offset has changes, and
the pairs are the offset's changes sorted by ascending bus index. -/
theorem C7_control_bus_coalescing_witness :
    (∀ t, (∃ (i : ℕ) (bus : Bus) (v : ℚ), twoBusSession.buses[i]? = some bus ∧
        bus.rate = Rate.control ∧ (t, v) ∈ bus.events) →
      ∃ b ∈ twoBusBundles, b.timestamp = t) ∧
    (∀ b ∈ twoBusBundles,
      ((b.contents.filter isBusSetMsg).length =
        if ctrlEventPairs twoBusSession b.timestamp = [] then 0 else 1) ∧
      (∀ ps, OscMessage.cmd (Request.controlBusSet ps) ∈ b.contents →
        (ps.map Prod.fst).Pairwise (· < ·) ∧
        (∀ id v, ((id, v) ∈ ps ↔ ∃ (i : ℕ) (bus : Bus),
          twoBusSession.buses[i]? = some bus ∧
          bus.rate = Rate.control ∧ busIdOf twoBusSession i = id ∧
          (b.timestamp, v) ∈ bus.events)))) :=
  C7_control_bus_coalescing twoBusSession twoBusBundles (by rfl) (by decide)

/-- Lookup after a first-wins insertion, at the inserted key. -/
theorem insertIfAbsent_lookup_same {κ ν : Type _} [DecidableEq κ] (m : List (κ × ν))
    (k : κ) (v : ν) :
    (insertIfAbsent m k v).lookup k = some ((m.lookup k).getD v) := by
  unfold insertIfAbsent
  by_cases h : k ∈ m.map Prod.fst
  · rw [if_pos ((any_key_iff m k).mpr h)]
    obtain ⟨w, hw⟩ := Option.isSome_iff_exists.mp ((lookup_isSome_iff m k).mpr h)
    rw [hw]
    rfl
  · rw [if_neg (fun hany => h ((any_key_iff m k).mp hany))]
    rw [lookup_append_of_none _ _ _ ((lookup_eq_none_iff m k).mpr h),
      (lookup_eq_none_iff m k).mpr h, lookup_cons_eq, if_pos rfl]
    rfl

/-- Lookup after a first-wins insertion, at another key. -/
theorem insertIfAbsent_lookup_other {κ ν : Type _} [DecidableEq κ] (m : List (κ × ν))
    (k : κ) (v : ν) (k' : κ) (h : k' ≠ k) :
    (insertIfAbsent m k v).lookup k' = m.lookup k' := by
  unfold insertIfAbsent
  by_cases hmem : m.any (fun p => p.1 = k)
  · rw [if_pos hmem]
  · rw [if_neg hmem]
    cases hl : m.lookup k' with
    | some w => exact lookup_append_of_some _ _ hl
    | none =>
        rw [lookup_append_of_none _ _ _ hl, lookup_cons_eq, if_neg h]
        rfl

/-- First-wins insertion keeps the keys distinct. -/
theorem insertIfAbsent_keys_nodup {κ ν : Type _} [DecidableEq κ] (m : List (κ × ν))
    (k : κ) (v : ν) (h : (m.map Prod.fst).Nodup) :
    ((insertIfAbsent m k v).map Prod.fst).Nodup := by
  unfold insertIfAbsent
  by_cases hmem : m.any (fun p => p.1 = k)
  · rw [if_pos hmem]
    exact h
  · rw [if_neg hmem, List.map_append, List.nodup_append]
    refine ⟨h, by simp, ?_⟩
    intro a ham hamem
    rw [List.map_singleton, List.mem_singleton] at hamem
    subst hamem
    exact hmem ((any_key_iff m a).mpr ham)

/-- A successful lookup names an entry of the list. -/
theorem lookup_mem {κ ν : Type _} [DecidableEq κ] {m : List (κ × ν)} {k : κ} {v : ν}
    (h : m.lookup k = some v) : (k, v) ∈ m := by
  induction m with
  | nil => cases h
  | cons p rest ih =>
      obtain ⟨k₀, v₀⟩ := p
      rw [lookup_cons_eq] at h
      by_cases he : k = k₀
      · rw [if_pos he] at h
        subst he
        rw [Option.some.inj h]
        exact List.mem_cons_self _ _
      · rw [if_neg he] at h
        exact List.mem_cons_of_mem _ (ih h)

/-- With distinct keys, membership determines the lookup. -/
theorem mem_lookup_of_nodup {κ ν : Type _} [DecidableEq κ] {m : List (κ × ν)}
    (hn : (m.map Prod.fst).Nodup) {k : κ} {v : ν} (h : (k, v) ∈ m) :
    m.lookup k = some v := by
  have hk : k ∈ m.map Prod.fst := List.mem_map_of_mem Prod.fst h
  obtain ⟨w, hw⟩ := Option.isSome_iff_exists.mp ((lookup_isSome_iff m k).mpr hk)
  rw [hw, keysNodup_functional hn (lookup_mem hw) h]

/-- The per-simultaneity synthdef-recording fold never overwrites a key
already present. -/
theorem foldIns_lookup_some (l : List Synth) (m : List (ℕ × ℚ)) (d : ℕ) (t : ℚ)
    (h : m.lookup d = some t) :
    ((l.foldl (fun m syn => insertIfAbsent m syn.synthdef syn.startOffset) m).lookup d) =
      some t := by
  induction l generalizing m with
  | nil => exact h
  | cons syn rest ih =>
      rw [List.foldl_cons]
      refine ih _ ?_
      by_cases he : d = syn.synthdef
      · subst he
        rw [insertIfAbsent_lookup_same, h]
        rfl
      · rw [insertIfAbsent_lookup_other _ _ _ _ he, h]

/-- The per-simultaneity synthdef-recording fold records an absent key
with the start offset of the first matching synth. -/
theorem foldIns_lookup_none (l : List Synth) (m : List (ℕ × ℚ)) (d : ℕ)
    (h : m.lookup d = none) :
    ((l.foldl (fun m syn => insertIfAbsent m syn.synthdef syn.startOffset) m).lookup d) =
      (l.find? (fun syn => syn.synthdef = d)).map Synth.startOffset := by
  induction l generalizing m with
  | nil => exact h
  | cons syn rest ih =>
      rw [List.foldl_cons]
      by_cases he : syn.synthdef = d
      · rw [List.find?_cons_of_pos _ (by simp [he])]
        subst he
        have hl : (insertIfAbsent m syn.synthdef syn.startOffset).lookup syn.synthdef =
            some syn.startOffset := by
          rw [insertIfAbsent_lookup_same, h]
          rfl
        rw [foldIns_lookup_some rest _ _ _ hl]
        rfl
      · rw [List.find?_cons_of_neg _ (by simp [he])]
        refine ih _ ?_
        rw [insertIfAbsent_lookup_other _ _ _ _ (fun hd => he hd.symm), h]

/-- The per-simultaneity fold keeps the keys distinct. -/
theorem foldIns_keys_nodup (l : List Synth) (m : List (ℕ × ℚ))
    (h : (m.map Prod.fst).Nodup) :
    (((l.foldl (fun m syn => insertIfAbsent m syn.synthdef syn.startOffset) m)).map
      Prod.fst).Nodup := by
  induction l generalizing m with
  | nil => exact h
  | cons syn rest ih => exact ih _ (insertIfAbsent_keys_nodup _ _ _ h)

/-- `synthdefs_to_offsets` walked over any offset list: a present key is
kept. -/
theorem sdFold_lookup_some (synths : List Synth) (offs : List ℚ) (m : List (ℕ × ℚ))
    (d : ℕ) (t : ℚ) (h : m.lookup d = some t) :
    ((offs.foldl
      (fun m off => (synths.filter (fun syn => syn.startOffset = off)).foldl
        (fun m syn => insertIfAbsent m syn.synthdef syn.startOffset) m) m).lookup d) =
      some t := by
  induction offs generalizing m with
  | nil => exact h
  | cons off rest ih =>
      rw [List.foldl_cons]
      exact ih _ (foldIns_lookup_some _ _ _ _ h)

/-- `synthdefs_to_offsets` walked over any offset list: an absent key is
recorded with the first offset at which a matching synth starts. -/
theorem sdFold_lookup_none (synths : List Synth) (offs : List ℚ) (m : List (ℕ × ℚ))
    (d : ℕ) (h : m.lookup d = none) :
    ((offs.foldl
      (fun m off => (synths.filter (fun syn => syn.startOffset = off)).foldl
        (fun m syn => insertIfAbsent m syn.synthdef syn.startOffset) m) m).lookup d) =
      offs.find? (fun off => (synths.filter (fun syn => syn.startOffset = off)).any
        (fun syn => syn.synthdef = d)) := by
  induction offs generalizing m with
  | nil => exact h
  | cons off rest ih =>
      rw [List.foldl_cons]
      by_cases hp : ((synths.filter (fun syn => syn.startOffset = off)).any
          (fun syn => syn.synthdef = d)) = true
      · rw [List.find?_cons_of_pos
          (p := fun off => (synths.filter (fun syn => syn.startOffset = off)).any
            (fun syn => syn.synthdef = d)) rest hp]
        cases hfind : (synths.filter (fun syn => syn.startOffset = off)).find?
            (fun syn => syn.synthdef = d) with
        | none =>
            obtain ⟨syn₀, hmem₀, hp₀⟩ := List.any_eq_true.mp hp
            exact absurd hp₀ (List.find?_eq_none.mp hfind syn₀ hmem₀)
        | some syn₀ =>
            have hstart : syn₀.startOffset = off :=
              of_decide_eq_true
                (List.mem_filter.mp (List.mem_of_find?_eq_some hfind)).2
            have hinner : (((synths.filter (fun syn => syn.startOffset = off)).foldl
                (fun m syn => insertIfAbsent m syn.synthdef syn.startOffset) m).lookup d) =
                some off := by
              rw [foldIns_lookup_none _ _ _ h, hfind]
              rw [Option.map_some', hstart]
            exact sdFold_lookup_some synths rest _ d off hinner
      · rw [List.find?_cons_of_neg
          (p := fun off => (synths.filter (fun syn => syn.startOffset = off)).any
            (fun syn => syn.synthdef = d)) rest hp]
        refine ih _ ?_
        rw [foldIns_lookup_none _ _ _ h]
        cases hfind : (synths.filter (fun syn => syn.startOffset = off)).find?
            (fun syn => syn.synthdef = d) with
        | none => rfl
        | some syn₀ =>
            exact absurd (List.any_eq_true.mpr
              ⟨syn₀, List.mem_of_find?_eq_some hfind, List.find?_some hfind⟩) hp

/-- `synthdefs_to_offsets` maps each synthdef to the first simultaneity
offset at which one of its synths starts. -/
theorem synthdefsToOffsets_lookup (synths : List Synth) (d : ℕ) :
    (synthdefsToOffsets synths).lookup d =
      (simultaneityOffsets synths).find?
        (fun off => (synths.filter (fun syn => syn.startOffset = off)).any
          (fun syn => syn.synthdef = d)) := by
  unfold synthdefsToOffsets
  exact sdFold_lookup_none synths _ [] d rfl

/-- `synthdefs_to_offsets` has distinct synthdef keys. -/
theorem synthdefsToOffsets_keys_nodup (synths : List Synth) :
    ((synthdefsToOffsets synths).map Prod.fst).Nodup := by
  unfold synthdefsToOffsets
  generalize simultaneityOffsets synths = offs
  have : ∀ (offs : List ℚ) (m : List (ℕ × ℚ)), (m.map Prod.fst).Nodup →
      ((offs.foldl
        (fun m off => (synths.filter (fun syn => syn.startOffset = off)).foldl
          (fun m syn => insertIfAbsent m syn.synthdef syn.startOffset) m) m).map
            Prod.fst).Nodup := by
    intro offs
    induction offs with
    | nil => intro m hm; exact hm
    | cons off rest ih => intro m hm; exact ih _ (foldIns_keys_nodup _ _ hm)
  exact this offs [] (by simp)

/-- In a `≤`-sorted list, `find?` returns a minimum among the elements
satisfying the predicate. -/
theorem find_min_of_sorted {p : ℚ → Bool} :
    ∀ {l : List ℚ}, l.Pairwise (· ≤ ·) → ∀ {a : ℚ}, l.find? p = some a →
      ∀ b ∈ l, p b = true → a ≤ b := by
  intro l
  induction l with
  | nil =>
      intro _ a hfind
      cases hfind
  | cons x rest ih =>
      intro hp a hfind b hb hpb
      rw [List.pairwise_cons] at hp
      by_cases hx : p x = true
      · rw [List.find?_cons_of_pos rest hx] at hfind
        rw [← Option.some.inj hfind]
        rcases List.mem_cons.mp hb with rfl | hb'
        · exact le_refl b
        · exact hp.1 _ hb'
      · rw [List.find?_cons_of_neg rest hx] at hfind
        rcases List.mem_cons.mp hb with rfl | hb'
        · exact absurd hpb hx
        · exact ih hp.2 hfind b hb' hpb

/-- A referenced synthdef is recorded in `synthdefs_to_offsets`. -/
theorem synthdefsToOffsets_lookup_isSome (synths : List Synth) (d : ℕ)
    (hd : ∃ syn ∈ synths, syn.synthdef = d) :
    ((synthdefsToOffsets synths).lookup d).isSome := by
  rw [synthdefsToOffsets_lookup]
  obtain ⟨syn, hmem, hdef⟩ := hd
  have hoff : syn.startOffset ∈ simultaneityOffsets synths := by
    unfold simultaneityOffsets
    refine (List.perm_insertionSort _ _).mem_iff.mpr ?_
    rw [List.mem_dedup]
    unfold allOffsets
    exact List.mem_flatMap.mpr ⟨syn, hmem, List.mem_cons_self _ _⟩
  have hpred : ((synths.filter
      (fun syn' => syn'.startOffset = syn.startOffset)).any
      (fun syn' => syn'.synthdef = d)) = true :=
    List.any_eq_true.mpr ⟨syn, List.mem_filter.mpr ⟨hmem, by simp⟩, by simp [hdef]⟩
  cases hfind : (simultaneityOffsets synths).find?
      (fun off => (synths.filter (fun syn => syn.startOffset = off)).any
        (fun syn => syn.synthdef = d)) with
  | some _ => rfl
  | none => exact absurd hpred (List.find?_eq_none.mp hfind _ hoff)

/-- The offset `synthdefs_to_offsets` records for a synthdef is attained
by a referencing synth and is minimal among their start offsets. -/
theorem synthdefsToOffsets_lookup_min (synths : List Synth) (d : ℕ) (t : ℚ)
    (h : (synthdefsToOffsets synths).lookup d = some t) :
    (∃ syn ∈ synths, syn.synthdef = d ∧ syn.startOffset = t) ∧
    (∀ syn ∈ synths, syn.synthdef = d → t ≤ syn.startOffset) := by
  rw [synthdefsToOffsets_lookup] at h
  constructor
  · have hpred := List.find?_some h
    obtain ⟨syn, hsynmem, hsyndef⟩ := List.any_eq_true.mp hpred
    have hf := List.mem_filter.mp hsynmem
    exact ⟨syn, hf.1, of_decide_eq_true hsyndef, of_decide_eq_true hf.2⟩
  · intro syn hmem hdef
    have hsorted : (simultaneityOffsets synths).Pairwise (· ≤ ·) := by
      unfold simultaneityOffsets
      exact List.sorted_insertionSort _ _
    have hoff : syn.startOffset ∈ simultaneityOffsets synths := by
      unfold simultaneityOffsets
      refine (List.perm_insertionSort _ _).mem_iff.mpr ?_
      rw [List.mem_dedup]
      unfold allOffsets
      exact List.mem_flatMap.mpr ⟨syn, hmem, List.mem_cons_self _ _⟩
    have hpred : ((synths.filter
        (fun syn' => syn'.startOffset = syn.startOffset)).any
        (fun syn' => syn'.synthdef = d)) = true :=
      List.any_eq_true.mpr ⟨syn, List.mem_filter.mpr ⟨hmem, by simp⟩, by simp [hdef]⟩
    exact find_min_of_sorted hsorted h _ hoff hpred

/-- The keys after a fold of dict insertions are the old keys plus the
inserted ones. -/
theorem mem_keys_foldl_dictInsert {κ ν β : Type _} [DecidableEq κ] (key : β → κ)
    (val : List (κ × ν) → β → ν) (l : List β) (m : List (κ × ν)) (k' : κ) :
    (k' ∈ ((l.foldl (fun m b => dictInsert m (key b) (val m b)) m)).map Prod.fst) ↔
      k' ∈ m.map Prod.fst ∨ ∃ b ∈ l, k' = key b := by
  induction l generalizing m with
  | nil => simp
  | cons b rest ih =>
      rw [List.foldl_cons, ih, mem_keys_dictInsert]
      constructor
      · rintro (⟨h | h⟩ | ⟨b', hb', hk'⟩)
        · exact Or.inl h
        · exact Or.inr ⟨b, List.mem_cons_self _ _, h⟩
        · exact Or.inr ⟨b', List.mem_cons_of_mem _ hb', hk'⟩
      · rintro (h | ⟨b', hb', hk'⟩)
        · exact Or.inl (Or.inl h)
        · rcases List.mem_cons.mp hb' with rfl | hb''
          · exact Or.inl (Or.inr hk')
          · exact Or.inr ⟨b', hb'', hk'⟩

/-- The grouping fold of `_collect_synthdef_requests`: the value at a key
accumulates, in order, the first components of the pairs carrying that
key. -/
theorem groupFold_lookup_getD (l : List (ℕ × ℚ)) (m : List (ℚ × List ℕ)) (t : ℚ)
    (hn : (m.map Prod.fst).Nodup) :
    (((l.foldl (fun m p => dictInsert m p.2 (((m.lookup p.2).getD []) ++ [p.1])) m)).lookup
        t).getD [] =
      ((m.lookup t).getD []) ++ (l.filter (fun p => p.2 = t)).map Prod.fst := by
  induction l generalizing m with
  | nil => simp
  | cons p rest ih =>
      rw [List.foldl_cons]
      rw [ih _ (dictInsert_keys_nodup _ _ _ hn)]
      by_cases ht : p.2 = t
      · subst ht
        rw [List.filter_cons_of_pos (by simp)]
        rw [dictInsert_lookup _ _ _ _ hn, if_pos rfl]
        simp
      · rw [List.filter_cons_of_neg (by simp [ht])]
        rw [dictInsert_lookup _ _ _ _ hn, if_neg (fun h => ht h.symm)]

/-- `offsets_to_synthdefs` has distinct offset keys. -/
theorem offsetsToSynthdefs_keys_nodup (synths : List Synth) :
    ((offsetsToSynthdefs synths).map Prod.fst).Nodup := by
  unfold offsetsToSynthdefs
  exact foldl_dictInsert_nodup Prod.snd
    (fun m p => ((m.lookup p.2).getD []) ++ [p.1]) _ [] (by simp)

/-- The synthdef list `offsets_to_synthdefs` holds at an offset. -/
theorem offsetsToSynthdefs_lookup_getD (synths : List Synth) (t : ℚ) :
    (((offsetsToSynthdefs synths).lookup t).getD []) =
      ((synthdefsToOffsets synths).filter (fun p => p.2 = t)).map Prod.fst := by
  unfold offsetsToSynthdefs
  have h := groupFold_lookup_getD (synthdefsToOffsets synths) [] t (by simp)
  simpa using h

/-- The offsets `offsets_to_synthdefs` mentions are those recorded in
`synthdefs_to_offsets`. -/
theorem mem_keys_offsetsToSynthdefs (synths : List Synth) (t : ℚ) :
    t ∈ (offsetsToSynthdefs synths).map Prod.fst ↔
      ∃ p ∈ synthdefsToOffsets synths, t = p.2 := by
  unfold offsetsToSynthdefs
  have h := mem_keys_foldl_dictInsert Prod.snd
    (fun m p => ((m.lookup p.2).getD []) ++ [p.1]) (synthdefsToOffsets synths) [] t
  simpa using h

/-- A definition-receive message transmits `d` exactly when `d` is among
its synthdefs. -/
theorem mentionsDef_receive_iff (d : ℕ) (ds : List ℕ) :
    mentionsDef d (OscMessage.cmd (Request.synthDefReceive ds)) = true ↔ d ∈ ds := by
  show ds.contains d = true ↔ d ∈ ds
  exact List.elem_iff

/-- Only definition-receive commands mention a synthdef. -/
theorem mentionsDef_cmd_false (d : ℕ) (r : Request)
    (h : ¬ r.kind = ReqKind.defReceive) :
    mentionsDef d (OscMessage.cmd r) = false := by
  cases r
  case synthDefReceive ds => exact absurd rfl h
  all_goals rfl

/-- The number of messages transmitting `d` in the requests a single
offset's definition-receive collector yields. -/
theorem synthdefRequestsAt_countP (synths : List Synth) (d : ℕ) (t : ℚ) :
    (synthdefRequestsAt synths t).countP
        (fun r => mentionsDef d (OscMessage.cmd r)) =
      if (synthdefsToOffsets synths).lookup d = some t then 1 else 0 := by
  unfold synthdefRequestsAt
  rw [filter_key_of_nodup _ _ (offsetsToSynthdefs_keys_nodup synths)]
  cases hl : (offsetsToSynthdefs synths).lookup t with
  | none =>
      have hne : ¬ (synthdefsToOffsets synths).lookup d = some t := by
        intro hdt
        have hmem : t ∈ (offsetsToSynthdefs synths).map Prod.fst :=
          (mem_keys_offsetsToSynthdefs synths t).mpr ⟨(d, t), lookup_mem hdt, rfl⟩
        have hsome := (lookup_isSome_iff _ _).mpr hmem
        rw [hl] at hsome
        cases hsome
      rw [if_neg hne]
      rfl
  | some defs =>
      have hdefs : defs = ((synthdefsToOffsets synths).filter
          (fun p => p.2 = t)).map Prod.fst := by
        have h := offsetsToSynthdefs_lookup_getD synths t
        rw [hl] at h
        exact h
      simp only [Option.map_some', Option.toList_some, List.flatMap_cons,
        List.flatMap_nil, List.append_nil, List.countP_cons, List.countP_nil]
      have hiff : (mentionsDef d (OscMessage.cmd (Request.synthDefReceive
          (defs.insertionSort (· ≤ ·)))) = true) ↔
          (synthdefsToOffsets synths).lookup d = some t := by
        rw [mentionsDef_receive_iff, (List.perm_insertionSort _ defs).mem_iff, hdefs]
        constructor
        · intro hmem
          obtain ⟨p, hp, hpd⟩ := List.mem_map.mp hmem
          have hpt := of_decide_eq_true (List.mem_filter.mp hp).2
          have hpe : p = (d, t) := Prod.ext hpd hpt
          refine mem_lookup_of_nodup (synthdefsToOffsets_keys_nodup synths) ?_
          rw [← hpe]
          exact (List.mem_filter.mp hp).1
        · intro hdt
          exact List.mem_map.mpr
            ⟨(d, t), List.mem_filter.mpr ⟨lookup_mem hdt, by simp⟩, rfl⟩
      by_cases hc : (synthdefsToOffsets synths).lookup d = some t
      · rw [if_pos hc, if_pos (hiff.mpr hc)]
      · rw [if_neg hc, if_neg (fun hx => hc (hiff.mp hx))]

/-- Non-definition-receive request classes contribute no message
transmitting a synthdef. -/
theorem countP_mentions_map_cmd_zero (d : ℕ) (reqs : List Request) (k : ReqKind)
    (hk : ¬ k = ReqKind.defReceive) :
    ((reqs.filter (fun r => r.kind = k)).map OscMessage.cmd).countP
      (mentionsDef d) = 0 := by
  rw [List.countP_eq_zero]
  intro m hm
  obtain ⟨r, hr, hrm⟩ := List.mem_map.mp hm
  rw [← hrm]
  have hkind := of_decide_eq_true (List.mem_filter.mp hr).2
  simp [mentionsDef_cmd_false d r (fun h => hk (hkind ▸ h))]

/-- A synthdef mention forces the definition-receive class. -/
theorem mentionsDef_and_kind (d : ℕ) (r : Request) :
    ((mentionsDef d (OscMessage.cmd r)) && decide (r.kind = ReqKind.defReceive)) =
      mentionsDef d (OscMessage.cmd r) := by
  cases r
  case synthDefReceive ds => simp [Request.kind]
  all_goals simp [mentionsDef]

/-- The definition-receive class carries all messages transmitting a
synthdef. -/
theorem countP_mentions_defReceive (d : ℕ) (reqs : List Request) :
    ((reqs.filter (fun r => r.kind = ReqKind.defReceive)).map OscMessage.cmd).countP
        (mentionsDef d) =
      reqs.countP (fun r => mentionsDef d (OscMessage.cmd r)) := by
  rw [List.countP_map, List.countP_filter]
  refine List.countP_congr (fun r _ => ?_)
  show ((mentionsDef d (OscMessage.cmd r)) && decide (r.kind = ReqKind.defReceive)) =
      true ↔ mentionsDef d (OscMessage.cmd r) = true
  rw [mentionsDef_and_kind d r]

/-- The bundle built at an offset carries as many messages transmitting
`d` as the offset's requests do. -/
theorem processRequests_countP_mentionsDef (d : ℕ) (o : ℚ) (reqs : List Request) :
    ((processRequests o reqs).contents).countP (mentionsDef d) =
      reqs.countP (fun r => mentionsDef d (OscMessage.cmd r)) := by
  rw [processRequests_contents, List.countP_append]
  have htail : ((if (reqs.filter (fun r => r.kind = ReqKind.nodeFree)).isEmpty then
      ([] : List OscMessage)
      else [OscMessage.cmd (Request.nodeFree
        ((reqs.filter (fun r => r.kind = ReqKind.nodeFree)).flatMap
          Request.freeIds))]).countP (mentionsDef d)) = 0 := by
    by_cases hemp : (reqs.filter (fun r => r.kind = ReqKind.nodeFree)).isEmpty
    · rw [if_pos hemp]
      rfl
    · rw [if_neg hemp]
      simp [List.countP_cons, mentionsDef]
  rw [htail, Nat.add_zero]
  simp only [prioritizedRequestTypes, List.flatMap_cons, List.flatMap_nil,
    List.append_nil, List.countP_append]
  rw [countP_mentions_defReceive d reqs,
    countP_mentions_map_cmd_zero d reqs ReqKind.busSet (by decide),
    countP_mentions_map_cmd_zero d reqs ReqKind.groupNew (by decide),
    countP_mentions_map_cmd_zero d reqs ReqKind.synthNew (by decide),
    countP_mentions_map_cmd_zero d reqs ReqKind.busMapAudio (by decide),
    countP_mentions_map_cmd_zero d reqs ReqKind.busMapControl (by decide),
    countP_mentions_map_cmd_zero d reqs ReqKind.paramSet (by decide)]
  omega

/-- The collected requests of an offset transmit `d` exactly once when
`synthdefs_to_offsets` recorded `d` there, never otherwise. -/
theorem find_countP_mentionsDef (s : Session) (d : ℕ) (t : ℚ) :
    (s.requestMapping.find t).countP (fun r => mentionsDef d (OscMessage.cmd r)) =
      if (synthdefsToOffsets s.synths).lookup d = some t then 1 else 0 := by
  rw [find_requestMapping, List.countP_append, List.countP_append]
  have h1 : (busRequestsAt s t).countP
      (fun r => mentionsDef d (OscMessage.cmd r)) = 0 := by
    rw [List.countP_eq_zero]
    intro r hr
    simp [mentionsDef_cmd_false d r (by rw [busRequestsAt_kinds s t r hr]; decide)]
  have h3 : (synthRequestsAt s.synths t).countP
      (fun r => mentionsDef d (OscMessage.cmd r)) = 0 := by
    rw [List.countP_eq_zero]
    intro r hr
    have hk : ¬ r.kind = ReqKind.defReceive := by
      rcases synthRequestsAt_kinds s.synths t r hr with h | h | h <;> rw [h] <;> decide
    simp [mentionsDef_cmd_false d r hk]
  rw [h1, h3, synthdefRequestsAt_countP, Nat.zero_add, Nat.add_zero]

/-- Summing the indicator of a key over a distinct-keyed list containing
it gives one. -/
theorem sum_ite_eq_one {β : Type _} (key : β → ℚ) (t : ℚ) :
    ∀ (l : List β), (l.map key).Nodup → t ∈ l.map key →
      (l.map (fun b => if key b = t then 1 else 0)).sum = 1 := by
  intro l
  induction l with
  | nil =>
      intro _ hm
      cases hm
  | cons b rest ih =>
      intro hn hm
      rw [List.map_cons] at hn hm
      rw [List.map_cons, List.sum_cons]
      rcases List.mem_cons.mp hm with h | h
      · rw [if_pos h.symm]
        have hzero : (rest.map (fun b => if key b = t then 1 else 0)).sum = 0 := by
          refine List.sum_eq_zero ?_
          intro x hx
          obtain ⟨b', hb', hbx⟩ := List.mem_map.mp hx
          rw [← hbx, if_neg]
          intro he
          have hkb : key b ∈ rest.map key := by
            rw [← h, ← he]
            exact List.mem_map_of_mem key hb'
          exact (List.nodup_cons.mp hn).1 hkb
        rw [hzero]
      · have hne : ¬ key b = t := by
          intro he
          rw [← he] at h
          exact (List.nodup_cons.mp hn).1 h
        rw [if_neg hne, Nat.zero_add]
        exact ih (List.nodup_cons.mp hn).2 h

/-- C2: every synthdef referenced by at least one synth is transmitted by
exactly one definition-receive command across the whole rendered bundle
sequence, and any bundle carrying it sits at the minimum start offset
among the synths referencing that synthdef. -/
theorem C2_synthdef_single_receive (s : Session) (bundles : List OscBundle) (d : ℕ)
    (h : s.toOscBundles none = Except.ok bundles)
    (hd : ∃ syn ∈ s.synths, syn.synthdef = d) :
    ((bundles.map (fun b => b.contents.countP (mentionsDef d))).sum = 1) ∧
    (∀ b ∈ bundles, (∃ m ∈ b.contents, mentionsDef d m = true) →
      (∃ syn ∈ s.synths, syn.synthdef = d ∧ syn.startOffset = b.timestamp) ∧
      (∀ syn ∈ s.synths, syn.synthdef = d → b.timestamp ≤ syn.startOffset)) := by
  obtain ⟨-, hb⟩ := toOscBundles_ok h
  have hmask : processTimespanMask s none = s := rfl
  rw [hmask] at hb
  have hterm : ∀ f : ℚ, processTerminalEvent f none = [] := fun _ => rfl
  rw [hterm, List.append_nil] at hb
  obtain ⟨tmin, htmin⟩ := Option.isSome_iff_exists.mp
    (synthdefsToOffsets_lookup_isSome s.synths d hd)
  constructor
  · rw [hb, List.map_map]
    show ((List.insertionSort itemOffsetR s.requestMapping).map
      (fun p : ℚ × List Request =>
        ((processRequests p.1 p.2).contents).countP (mentionsDef d))).sum = 1
    have hperm := (List.perm_insertionSort itemOffsetR s.requestMapping).map
      (fun p : ℚ × List Request =>
        ((processRequests p.1 p.2).contents).countP (mentionsDef d))
    rw [hperm.sum_eq]
    have hcongr : s.requestMapping.map (fun p =>
        ((processRequests p.1 p.2).contents).countP (mentionsDef d)) =
        s.requestMapping.map (fun p => if p.1 = tmin then 1 else 0) := by
      refine List.map_congr_left ?_
      intro p hp
      have hfind := RequestMap.keys_mem_find s.requestMapping p.1
        (List.mem_map_of_mem Prod.fst hp)
      have hpf : p.2 = s.requestMapping.find p.1 :=
        keysNodup_functional (nodup_keys_requestMapping s) hp hfind
      rw [processRequests_countP_mentionsDef, hpf, find_countP_mentionsDef, htmin]
      by_cases he : p.1 = tmin
      · rw [if_pos he, if_pos (show some tmin = some p.1 by rw [he])]
      · rw [if_neg he, if_neg (fun hc => he (Option.some.inj hc).symm)]
    rw [hcongr]
    exact sum_ite_eq_one Prod.fst tmin s.requestMapping (nodup_keys_requestMapping s)
      ((mem_keys_requestMapping s tmin).mpr (Or.inr (Or.inl
        ((mem_keys_offsetsToSynthdefs s.synths tmin).mpr
          ⟨(d, tmin), lookup_mem htmin, rfl⟩))))
  · intro b hbmem hex
    rw [hb] at hbmem
    obtain ⟨o, hok, hbo⟩ := mem_map_processRequests.mp hbmem
    have hts : b.timestamp = o := by
      rw [hbo]
      rfl
    have hpos : 0 < (b.contents.countP (mentionsDef d)) := by
      obtain ⟨m, hm, hmd⟩ := hex
      exact List.countP_pos_iff.mpr ⟨m, hm, hmd⟩
    rw [hbo, processRequests_countP_mentionsDef, find_countP_mentionsDef] at hpos
    by_cases hl : (synthdefsToOffsets s.synths).lookup d = some o
    · obtain ⟨hex', hmin⟩ := synthdefsToOffsets_lookup_min s.synths d o hl
      rw [hts]
      exact ⟨hex', hmin⟩
    · rw [if_neg hl] at hpos
      exact absurd hpos (lt_irrefl 0)

/-- C2 (witness): scenario C — two overlapping synths on `[0, 10)` and
`[5, 15)` sharing synthdef 7 produce a single definition-receive for 7,
in the bundle at offset 0 only. -/
theorem C2_synthdef_single_receive_witness :
    ((sharedDefBundles.map (fun b => b.contents.countP (mentionsDef 7))).sum = 1) ∧
    (∀ b ∈ sharedDefBundles, (∃ m ∈ b.contents, mentionsDef 7 m = true) →
      (∃ syn ∈ sharedDefSession.synths, syn.synthdef = 7 ∧
        syn.startOffset = b.timestamp) ∧
      (∀ syn ∈ sharedDefSession.synths, syn.synthdef = 7 →
        b.timestamp ≤ syn.startOffset)) :=
  C2_synthdef_single_receive sharedDefSession sharedDefBundles 7 (by rfl)
    ⟨⟨0, some 10, 7, []⟩, List.mem_cons_self _ _, rfl⟩
